import Mathlib

/-!
# Verification of `lib/secret_keyring.go` (package `lib`)

A shallow embedding of `KeyringStore` and its operations `Load`, `Get`, `Save`
and `Clear`, together with the part of `encoding/json` and `unicode/utf8` those
operations run through (`json.Unmarshal` into a `**KeyringStore`, `json.Marshal`
of a `*KeyringStore`).

Modelling decisions:

* A Go `string` is a `GoString`, a list of bytes, well-formed UTF-8 or not.
  `utf8 t` is the Go string holding the text `t`; `WellFormed s` says that `s`
  is the UTF-8 encoding of a sequence of Unicode scalar values.
* A Go `map[string]string` is `Option GoMap`: `none` is the nil map, `some m`
  an allocated map given as an association list read through `mapGet`.
* The lock provider (`lockgate.Locker`) and the secret store
  (`github.com/zalando/go-keyring`) are external; their behaviour is a
  parameter `Collab σ` of every operation, over an arbitrary world state `σ`.
  Every call made to them is recorded in a list of `Event`s.
* `Load` and `Save` hand `&s`, the address of their receiver variable, to
  `json.Unmarshal`, which sets that variable to nil on the literal `null`; their
  deferred function reads `s.locker` through it.  `Body.receiverNil` records
  whether the body left it nil.
* The recursive functions of the JSON reader and writer take a bound on the
  length of their input.  `unquote_fuel` and `parseValue_fuel` show that the
  bounds the reader is given are enough: a larger bound never changes a result.
-/

namespace Lib

/-! ## Bytes and `unicode/utf8` -/

/-- A byte. -/
abbrev Byte := Fin 256

/-- A Go `string`: any sequence of bytes. -/
abbrev GoString := List Byte

/-- The byte with the given value (modulo 256). -/
def byte (n : Nat) : Byte := ⟨n % 256, Nat.mod_lt _ (by decide)⟩

/-- The byte of an ASCII character. -/
def ch (c : Char) : Byte := byte c.toNat

/-- Whether a byte is a continuation byte within the given bounds. -/
def inRange (lo hi : Nat) (b : Byte) : Bool := lo ≤ b.val && b.val ≤ hi

/-- The first rune of a string and its width in bytes (`utf8.DecodeRune`): an
ill-formed or truncated sequence gives `(0xFFFD, 1)`, the empty string
`(0xFFFD, 0)`.  The bounds on the second byte are those of `acceptRanges`. -/
def decodeRune : GoString → Nat × Nat
  | [] => (0xfffd, 0)
  | b0 :: rest =>
    if b0.val < 0x80 then (b0.val, 1)
    else if b0.val < 0xc2 then (0xfffd, 1)
    else if b0.val < 0xe0 then
      match rest with
      | b1 :: _ =>
        if inRange 0x80 0xbf b1 then ((b0.val - 0xc0) * 64 + (b1.val - 0x80), 2)
        else (0xfffd, 1)
      | _ => (0xfffd, 1)
    else if b0.val < 0xf0 then
      match rest with
      | b1 :: b2 :: _ =>
        if inRange (if b0.val = 0xe0 then 0xa0 else 0x80) (if b0.val = 0xed then 0x9f else 0xbf) b1
            && inRange 0x80 0xbf b2 then
          (((b0.val - 0xe0) * 64 + (b1.val - 0x80)) * 64 + (b2.val - 0x80), 3)
        else (0xfffd, 1)
      | _ => (0xfffd, 1)
    else if b0.val < 0xf5 then
      match rest with
      | b1 :: b2 :: b3 :: _ =>
        if inRange (if b0.val = 0xf0 then 0x90 else 0x80) (if b0.val = 0xf4 then 0x8f else 0xbf) b1
            && inRange 0x80 0xbf b2 && inRange 0x80 0xbf b3 then
          ((((b0.val - 0xf0) * 64 + (b1.val - 0x80)) * 64 + (b2.val - 0x80)) * 64
            + (b3.val - 0x80), 4)
        else (0xfffd, 1)
      | _ => (0xfffd, 1)
    else (0xfffd, 1)

/-- Unicode scalar values: code points that are not surrogates. -/
def isScalar (r : Nat) : Prop := r < 0xd800 ∨ (0xe000 ≤ r ∧ r ≤ 0x10ffff)

/-- The UTF-8 encoding of a rune (`utf8.AppendRune`); a surrogate or a value
beyond U+10FFFF is written as U+FFFD. -/
def encodeRune (r : Nat) : GoString :=
  if r < 0x80 then [byte r]
  else if r < 0x800 then [byte (0xc0 + r / 64), byte (0x80 + r % 64)]
  else if 0x10ffff < r ∨ (0xd800 ≤ r ∧ r < 0xe000) then [byte 0xef, byte 0xbf, byte 0xbd]
  else if r < 0x10000 then
    [byte (0xe0 + r / 4096), byte (0x80 + r / 64 % 64), byte (0x80 + r % 64)]
  else
    [byte (0xf0 + r / 262144), byte (0x80 + r / 4096 % 64), byte (0x80 + r / 64 % 64),
      byte (0x80 + r % 64)]

/-- The Go string holding a text: the UTF-8 encoding of its characters. -/
def utf8 (t : String) : GoString := t.data.flatMap (fun c => encodeRune c.toNat)

/-- Well-formed UTF-8: the encoding of a sequence of Unicode scalar values. -/
inductive WellFormed : GoString → Prop where
  | nil : WellFormed []
  | cons (r : Nat) (s : GoString) : isScalar r → WellFormed s → WellFormed (encodeRune r ++ s)

/-- A string with every ill-formed byte replaced by U+FFFD, rune by rune: what a
string becomes when `json.Marshal` writes it and `json.Unmarshal` reads it back
(`coerce_wellFormed`, `unquote_escapeBytes`).  A run of ill-formed bytes gives
one U+FFFD for each byte.  The first argument bounds the length of the string. -/
def coerce : Nat → GoString → GoString
  | 0, _ => []
  | _ + 1, [] => []
  | n + 1, b :: rest =>
    if b.val < 0x80 then b :: coerce n rest
    else
      match decodeRune (b :: rest) with
      | (r, size) =>
        if r = 0xfffd ∧ size = 1 then encodeRune 0xfffd ++ coerce n rest
        else encodeRune r ++ coerce n (rest.drop (size - 1))

/-- The string coerced to well-formed UTF-8. -/
def coerceUTF8 (s : GoString) : GoString := coerce s.length s

/-! ## `encoding/json`: scanning and unquoting -/

/-- White space between JSON tokens (`isSpace` in `scanner.go`). -/
def isSpace (c : Byte) : Bool :=
  c = ch ' ' || c = ch '\t' || c = ch '\r' || c = ch '\n'

/-- Skip leading white space. -/
def skipSpace : GoString → GoString
  | [] => []
  | c :: cs => if isSpace c then skipSpace cs else c :: cs

/-- Value of one hexadecimal digit (`getu4` in `decode.go`). -/
def hexVal (c : Byte) : Option Nat :=
  if 48 ≤ c.val ∧ c.val ≤ 57 then some (c.val - 48)
  else if 97 ≤ c.val ∧ c.val ≤ 102 then some (c.val - 87)
  else if 65 ≤ c.val ∧ c.val ≤ 70 then some (c.val - 55)
  else none

/-- Four hexadecimal digits, as they follow `\u`. -/
def hex4 : GoString → Option (Nat × GoString)
  | a :: b :: c :: d :: rest =>
    match hexVal a, hexVal b, hexVal c, hexVal d with
    | some x, some y, some z, some w => some (((x * 16 + y) * 16 + z) * 16 + w, rest)
    | _, _, _, _ => none
  | _ => none

/-- An escape `\uXXXX` at the head of the input (`getu4`). -/
def getu4 : GoString → Option (Nat × GoString)
  | c :: e :: rest => if c = ch '\\' ∧ e = ch 'u' then hex4 rest else none
  | _ => none

/-- Surrogate code points (`utf16.IsSurrogate`). -/
def isSurrogate (r : Nat) : Bool := 0xd800 ≤ r && r < 0xe000

/-- The rune of a surrogate pair, or U+FFFD (`utf16.DecodeRune`). -/
def decodeSurrogates (r1 r2 : Nat) : Nat :=
  if 0xd800 ≤ r1 ∧ r1 < 0xdc00 ∧ 0xdc00 ≤ r2 ∧ r2 < 0xe000 then
    (r1 - 0xd800) * 1024 + (r2 - 0xdc00) + 0x10000
  else 0xfffd

/-- The byte of a single-letter escape (`stateInStringEsc`, `unquoteBytes`). -/
def simpleEscape (e : Byte) : Option Byte :=
  if e = ch '"' then some (ch '"')
  else if e = ch '\\' then some (ch '\\')
  else if e = ch '/' then some (ch '/')
  else if e = ch 'b' then some (byte 8)
  else if e = ch 'f' then some (byte 12)
  else if e = ch 'n' then some (ch '\n')
  else if e = ch 'r' then some (ch '\r')
  else if e = ch 't' then some (ch '\t')
  else none

/-- Prepend decoded bytes to the rest of a string being unquoted. -/
def consBytes (pre : GoString) : Option (GoString × GoString) → Option (GoString × GoString)
  | some (s, rest) => some (pre ++ s, rest)
  | none => none

/-- The body of a JSON string, read after its opening quote up to and including
the closing quote: the decoded text and the input that follows.  `none` is a
syntax error (control character, bad escape, missing closing quote).  Bytes that
are not ASCII go through `utf8.DecodeRune` and `utf8.EncodeRune`, which turns an
ill-formed byte into U+FFFD.  The first argument bounds the length of the
body. -/
def unquote : Nat → GoString → Option (GoString × GoString)
  | 0, _ => none
  | _ + 1, [] => none
  | n + 1, c :: cs =>
    if c = ch '"' then some ([], cs)
    else if c = ch '\\' then
      match cs with
      | [] => none
      | e :: cs1 =>
        if e = ch 'u' then
          match hex4 cs1 with
          | none => none
          | some (r, cs2) =>
            if isSurrogate r then
              match getu4 cs2 with
              | some (r2, cs3) =>
                if decodeSurrogates r r2 = 0xfffd then
                  consBytes (encodeRune 0xfffd) (unquote n cs2)
                else consBytes (encodeRune (decodeSurrogates r r2)) (unquote n cs3)
              | none => consBytes (encodeRune 0xfffd) (unquote n cs2)
            else consBytes (encodeRune r) (unquote n cs2)
        else
          match simpleEscape e with
          | none => none
          | some b => consBytes [b] (unquote n cs1)
    else if c.val < 0x20 then none
    else if c.val < 0x80 then consBytes [c] (unquote n cs)
    else
      match decodeRune (c :: cs) with
      | (r, size) => consBytes (encodeRune r) (unquote n (cs.drop (size - 1)))

/-- Skip a run of decimal digits. -/
def skipDigits : GoString → GoString
  | [] => []
  | c :: cs => if 48 ≤ c.val ∧ c.val ≤ 57 then skipDigits cs else c :: cs

/-- At least one decimal digit, then the rest of the run. -/
def digits1 : GoString → Option GoString
  | [] => none
  | c :: cs => if 48 ≤ c.val ∧ c.val ≤ 57 then some (skipDigits cs) else none

/-- The exponent of a number, if one follows (`stateE`, `stateESign`, `stateE0`). -/
def scanExponent : GoString → Option GoString
  | [] => some []
  | c :: cs =>
    if c = ch 'e' ∨ c = ch 'E' then
      match cs with
      | [] => none
      | s :: cs1 => if s = ch '+' ∨ s = ch '-' then digits1 cs1 else digits1 (s :: cs1)
    else some (c :: cs)

/-- The fraction and exponent of a number (`state0`, `stateDot`, `stateDot0`). -/
def scanFraction : GoString → Option GoString
  | [] => some []
  | c :: cs =>
    if c = ch '.' then
      match digits1 cs with
      | none => none
      | some rest => scanExponent rest
    else scanExponent (c :: cs)

/-- The integer part, then fraction and exponent (`state1`, `state0`). -/
def scanInteger : GoString → Option GoString
  | [] => none
  | c :: cs =>
    if c = ch '0' then scanFraction cs
    else if 49 ≤ c.val ∧ c.val ≤ 57 then scanFraction (skipDigits cs)
    else none

/-- A JSON number literal (`stateNeg` and the states after it); the input that
follows it, or `none` on a syntax error. -/
def scanNumber : GoString → Option GoString
  | [] => none
  | c :: cs => if c = ch '-' then scanInteger cs else scanInteger (c :: cs)

/-- Drop a fixed word (the rest of `true`, `false`, `null`) from the input. -/
def expectWord : GoString → GoString → Option GoString
  | [], cs => some cs
  | _ :: _, [] => none
  | w :: ws, c :: cs => if c = w then expectWord ws cs else none

/-- A JSON value as `json.Unmarshal` sees it.  Numbers carry no payload: no
field of `KeyringStore` can hold one. -/
inductive Json where
  | null
  | bool (b : Bool)
  | num
  | str (s : GoString)
  | arr (xs : List Json)
  | obj (kvs : List (GoString × Json))

/-- Nesting limit of the scanner (`maxNestingDepth` in `scanner.go`). -/
def maxNestingDepth : Nat := 10000

/-- The elements of an array after the first position has been found not to be
`]`: `value (',' value)* ']'`, with `pv` reading one value. -/
def parseElements (pv : GoString → Option (Json × GoString)) :
    Nat → GoString → Option (List Json × GoString)
  | 0, _ => none
  | n + 1, cs =>
    match pv cs with
    | none => none
    | some (v, r) =>
      match skipSpace r with
      | [] => none
      | c :: r1 =>
        if c = ch ',' then
          match parseElements pv n r1 with
          | none => none
          | some (vs, r2) => some (v :: vs, r2)
        else if c = ch ']' then some ([v], r1)
        else none

/-- The members of an object, starting at a key: `string ':' value (',' string
':' value)* '}'`, with `pv` reading one value. -/
def parseMembers (pv : GoString → Option (Json × GoString)) :
    Nat → GoString → Option (List (GoString × Json) × GoString)
  | 0, _ => none
  | n + 1, cs =>
    match skipSpace cs with
    | [] => none
    | q :: r =>
      if q = ch '"' then
        match unquote r.length r with
        | none => none
        | some (k, r1) =>
          match skipSpace r1 with
          | [] => none
          | c :: r2 =>
            if c = ch ':' then
              match pv r2 with
              | none => none
              | some (v, r3) =>
                match skipSpace r3 with
                | [] => none
                | d :: r4 =>
                  if d = ch ',' then
                    match parseMembers pv n r4 with
                    | none => none
                    | some (ms, r5) => some ((k, v) :: ms, r5)
                  else if d = ch '\x7d' then some ([(k, v)], r4)
                  else none
            else none
      else none

/-- One JSON value, with leading white space: the value and the input after it.
`none` is a syntax error.  `depth` counts the arrays and objects that are open;
the first argument bounds the length of the input. -/
def parseValue : Nat → Nat → GoString → Option (Json × GoString)
  | 0, _, _ => none
  | fuel + 1, depth, cs =>
    match skipSpace cs with
    | [] => none
    | c :: r =>
      if c = ch '\x7b' then
        if depth < maxNestingDepth then
          match skipSpace r with
          | [] => none
          | c1 :: r1 =>
            if c1 = ch '\x7d' then some (Json.obj [], r1)
            else
              match parseMembers (parseValue fuel (depth + 1)) fuel (c1 :: r1) with
              | none => none
              | some (ms, r2) => some (Json.obj ms, r2)
        else none
      else if c = ch '[' then
        if depth < maxNestingDepth then
          match skipSpace r with
          | [] => none
          | c1 :: r1 =>
            if c1 = ch ']' then some (Json.arr [], r1)
            else
              match parseElements (parseValue fuel (depth + 1)) fuel (c1 :: r1) with
              | none => none
              | some (vs, r2) => some (Json.arr vs, r2)
        else none
      else if c = ch '"' then
        match unquote r.length r with
        | none => none
        | some (s, r1) => some (Json.str s, r1)
      else if c = ch 't' then
        match expectWord [ch 'r', ch 'u', ch 'e'] r with
        | none => none
        | some r1 => some (Json.bool true, r1)
      else if c = ch 'f' then
        match expectWord [ch 'a', ch 'l', ch 's', ch 'e'] r with
        | none => none
        | some r1 => some (Json.bool false, r1)
      else if c = ch 'n' then
        match expectWord [ch 'u', ch 'l', ch 'l'] r with
        | none => none
        | some r1 => some (Json.null, r1)
      else
        match scanNumber (c :: r) with
        | none => none
        | some r1 => some (Json.num, r1)

/-- A whole JSON text (`checkValid`): one value, white space around it, nothing
after it.  `none` is a `*json.SyntaxError`. -/
def parseJson (data : GoString) : Option Json :=
  match parseValue (data.length + 1) 0 data with
  | none => none
  | some (j, rest) => if skipSpace rest = [] then some j else none

/-! ## Go maps -/

/-- An allocated `map[string]string`, as an association list.  Only `mapGet`
gives it meaning: order and shadowed pairs are representation. -/
abbrev GoMap := List (GoString × GoString)

/-- Reading `m[k]` with the comma-ok form. -/
def mapGet (k : GoString) : GoMap → Option GoString
  | [] => none
  | (k1, v1) :: m => if k = k1 then some v1 else mapGet k m

/-- The assignment `m[k] = v` on an allocated map. -/
def mapSet (k v : GoString) : GoMap → GoMap
  | [] => [(k, v)]
  | (k1, v1) :: m => if k = k1 then (k, v) :: m else (k1, v1) :: mapSet k v m

/-- Reading `m[k]` with the comma-ok form on a map that may be nil: a nil map has
no keys and reading it does not fault. -/
def mapIndex (m : Option GoMap) (k : GoString) : Option GoString :=
  match m with
  | none => none
  | some m => mapGet k m

/-- Byte order of two strings (`strings.Compare` is negative). -/
def bytesLt : GoString → GoString → Bool
  | _, [] => false
  | [], _ :: _ => true
  | a :: as, b :: bs => if a.val < b.val then true else if a = b then bytesLt as bs else false

/-- Insert a key into a list of keys kept in increasing order without repeats. -/
def insertKey (k : GoString) : List GoString → List GoString
  | [] => [k]
  | x :: xs =>
    if k = x then x :: xs
    else if bytesLt k x then k :: x :: xs
    else x :: insertKey k xs

/-- The keys of a map in the order `json.Marshal` writes them. -/
def sortedKeys : GoMap → List GoString
  | [] => []
  | (k, _) :: m => insertKey k (sortedKeys m)

/-! ## `encoding/json`: `Marshal` -/

/-- The digits of `const hex = "0123456789abcdef"` in `encode.go`. -/
def hexDigit (n : Nat) : Byte :=
  if n < 10 then byte (48 + n) else byte (87 + n)

/-- ASCII bytes written verbatim inside a string (`htmlSafeSet`). -/
def htmlSafe (c : Byte) : Bool :=
  0x20 ≤ c.val && c.val < 0x80 &&
    !(c = ch '"' || c = ch '&' || c = ch '<' || c = ch '>' || c = ch '\\')

/-- What `appendString` (with `escapeHTML`) writes for one ASCII byte.  The short
forms `\b` and `\f` are those of the current toolchain; older ones write
`\u0008` and `\u000c`, which decode to the same bytes. -/
def escapeAscii (c : Byte) : GoString :=
  if htmlSafe c then [c]
  else if c = ch '\\' ∨ c = ch '"' then [ch '\\', c]
  else if c.val = 8 then [ch '\\', ch 'b']
  else if c.val = 12 then [ch '\\', ch 'f']
  else if c = ch '\n' then [ch '\\', ch 'n']
  else if c = ch '\r' then [ch '\\', ch 'r']
  else if c = ch '\t' then [ch '\\', ch 't']
  else [ch '\\', ch 'u', ch '0', ch '0', hexDigit (c.val / 16), hexDigit (c.val % 16)]

/-- The bytes of a string with their escapes, without the quotes (the loop of
`appendString`): an ill-formed byte is written `\ufffd`, U+2028 and U+2029 are
escaped, any other rune is copied.  The first argument bounds the length of the
string. -/
def escapeBytes : Nat → GoString → GoString
  | 0, _ => []
  | _ + 1, [] => []
  | n + 1, b :: rest =>
    if b.val < 0x80 then escapeAscii b ++ escapeBytes n rest
    else
      match decodeRune (b :: rest) with
      | (r, size) =>
        if r = 0xfffd ∧ size = 1 then
          [ch '\\', ch 'u', ch 'f', ch 'f', ch 'f', ch 'd'] ++ escapeBytes n rest
        else if r = 0x2028 ∨ r = 0x2029 then
          [ch '\\', ch 'u', ch '2', ch '0', ch '2', hexDigit (r % 16)]
            ++ escapeBytes n (rest.drop (size - 1))
        else (b :: rest).take size ++ escapeBytes n (rest.drop (size - 1))

/-- A quoted JSON string (`appendString`). -/
def appendString (s : GoString) : GoString :=
  ch '"' :: (escapeBytes s.length s ++ [ch '"'])

/-- The members `"k":"v"` of a map for the given keys, separated by commas. -/
def encodeMembers (m : GoMap) : List GoString → GoString
  | [] => []
  | [k] => appendString k ++ ch ':' :: appendString ((mapGet k m).getD [])
  | k :: k1 :: ks =>
    appendString k ++ ch ':' :: appendString ((mapGet k m).getD [])
      ++ ch ',' :: encodeMembers m (k1 :: ks)

/-- The encoding of a `map[string]string` (`mapEncoder.encode`): `null` for the
nil map, else the members in key order. -/
def encodeMap : Option GoMap → GoString
  | none => utf8 "null"
  | some m => ch '\x7b' :: (encodeMembers m (sortedKeys m) ++ [ch '\x7d'])

/-! ## `encoding/json`: `Unmarshal` into a `KeyringStore` -/

/-- Errors of `json.Unmarshal`: `*json.SyntaxError`, and `*json.UnmarshalTypeError`
with its `Value` field. -/
inductive UnmarshalError where
  | syntaxError
  | typeError (value : String)
  deriving DecidableEq, Repr

/-- Keep the first error (`decodeState.saveError`). -/
def saveError (saved : Option UnmarshalError) (e : UnmarshalError) : Option UnmarshalError :=
  match saved with
  | none => some e
  | some s => some s

/-- Decode a JSON value into a fresh map element of type `string`: the element
and the error saved, if any.  `null` leaves the zero value. -/
def decodeElem : Json → GoString × Option UnmarshalError
  | Json.str s => (s, none)
  | Json.null => ([], none)
  | Json.bool _ => ([], some (UnmarshalError.typeError "bool"))
  | Json.num => ([], some (UnmarshalError.typeError "number"))
  | Json.arr _ => ([], some (UnmarshalError.typeError "array"))
  | Json.obj _ => ([], some (UnmarshalError.typeError "object"))

/-- The members of a JSON object decoded into an allocated map, in order
(`decodeState.object` on a map): every key is stored, with the zero value when
its value is not a string. -/
def decodeMapMembers : List (GoString × Json) → GoMap → Option UnmarshalError →
    GoMap × Option UnmarshalError
  | [], m, err => (m, err)
  | (k, v) :: ms, m, err =>
    match decodeElem v with
    | (e, none) => decodeMapMembers ms (mapSet k e m) err
    | (e, some x) => decodeMapMembers ms (mapSet k e m) (saveError err x)

/-- Decode a JSON value into the field `AWSCredentials map[string]string`:
`null` makes the map nil, an object is merged into the map (allocated first if
nil, existing entries kept), anything else is a type error. -/
def decodeCredentials (v : Json) (m : Option GoMap) (err : Option UnmarshalError) :
    Option GoMap × Option UnmarshalError :=
  match v with
  | Json.null => (none, err)
  | Json.obj ms =>
    match decodeMapMembers ms (m.getD []) err with
    | (m1, err1) => (some m1, err1)
  | Json.str _ => (m, saveError err (UnmarshalError.typeError "string"))
  | Json.bool _ => (m, saveError err (UnmarshalError.typeError "bool"))
  | Json.num => (m, saveError err (UnmarshalError.typeError "number"))
  | Json.arr _ => (m, saveError err (UnmarshalError.typeError "array"))

/-- Case folding of one rune that is not ASCII (`foldRune`), as far as it can
reach an ASCII letter: U+017F folds to `S` and U+212A to `K`.  The image of any
other such rune is not ASCII either, as the rune itself, which the model keeps. -/
def foldRune (r : Nat) : Nat :=
  if r = 0x17f then 83
  else if r = 0x212a then 75
  else r

/-- An object key with its case folded (`foldName`): ASCII lower case letters are
raised, other runes go through `foldRune`.  The first argument bounds the length
of the key. -/
def foldName : Nat → GoString → GoString
  | 0, _ => []
  | _ + 1, [] => []
  | n + 1, b :: rest =>
    if b.val < 0x80 then
      (if 97 ≤ b.val ∧ b.val ≤ 122 then byte (b.val - 32) else b) :: foldName n rest
    else
      match decodeRune (b :: rest) with
      | (r, size) => encodeRune (foldRune r) ++ foldName n (rest.drop (size - 1))

/-- Whether an object key selects the field tagged `json:"credentials"`: an
exact or a case-insensitive match. -/
def matchesCredentials (key : GoString) : Bool :=
  foldName key.length key = utf8 "CREDENTIALS"

/-- The members of a JSON object decoded into a `KeyringStore`, in order
(`decodeState.object` on a struct): only `AWSCredentials` is a JSON field, other
keys are skipped. -/
def decodeStructMembers : List (GoString × Json) → Option GoMap → Option UnmarshalError →
    Option GoMap × Option UnmarshalError
  | [], m, err => (m, err)
  | (k, v) :: ms, m, err =>
    if matchesCredentials k then
      match decodeCredentials v m err with
      | (m1, err1) => decodeStructMembers ms m1 err1
    else decodeStructMembers ms m err

/-! ## The cache object and `json.Marshal` / `json.Unmarshal` on it -/

/-- The struct `KeyringStore`.  The field `locker` is the lock provider, which
the operations below receive as part of their `Collab` argument. -/
structure KeyringStore where
  lockResource : GoString
  user : GoString
  service : GoString
  AWSCredentials : Option GoMap
  deriving DecidableEq, Repr

/-- The call `json.Unmarshal([]byte(data), &s)` of `Load` and `Save`, where the
local `s` points at the cache object: the value of `s` afterwards (`none` when it
was set to nil, else the object it still points at, with its new contents) and
the error.  A syntax error is found before anything is stored; a type error is
saved and decoding goes on. -/
def Unmarshal (data : GoString) (s : KeyringStore) :
    Option KeyringStore × Option UnmarshalError :=
  match parseJson data with
  | none => (some s, some UnmarshalError.syntaxError)
  | some Json.null => (none, none)
  | some (Json.obj ms) =>
    match decodeStructMembers ms s.AWSCredentials none with
    | (m, err) => (some { s with AWSCredentials := m }, err)
  | some (Json.str _) => (some s, some (UnmarshalError.typeError "string"))
  | some (Json.bool _) => (some s, some (UnmarshalError.typeError "bool"))
  | some Json.num => (some s, some (UnmarshalError.typeError "number"))
  | some (Json.arr _) => (some s, some (UnmarshalError.typeError "array"))

/-- The call `json.Marshal(s)` on a non-nil `s`: the object with its one JSON
field.  No value of this type makes it fail. -/
def Marshal (s : KeyringStore) : Except String GoString :=
  Except.ok (utf8 "\x7b\"credentials\":" ++ encodeMap s.AWSCredentials ++ utf8 "\x7d")

/-! ## Collaborators -/

/-- Errors of `keyring`: the distinguished `keyring.ErrNotFound`, or any other. -/
inductive KeyringError where
  | ErrNotFound
  | other (msg : String)
  deriving DecidableEq, Repr

/-- The struct `lockgate.LockHandle`. -/
structure LockHandle where
  UUID : GoString
  LockName : GoString
  deriving DecidableEq, Repr

/-- The fields of `lockgate.AcquireOptions` the source sets; `Timeout` is in
nanoseconds. -/
structure AcquireOptions where
  Shared : Bool
  Timeout : Nat
  deriving DecidableEq, Repr

/-- The lock provider and the secret store, over a world state `σ`: what each
call answers and the world it leaves.  The error of the lock provider is its
message. -/
structure Collab (σ : Type) where
  Acquire : GoString → AcquireOptions → σ → (Bool × LockHandle × Option String) × σ
  Release : LockHandle → σ → Option String × σ
  Get : GoString → GoString → σ → (GoString × Option KeyringError) × σ
  Set : GoString → GoString → GoString → σ → Option KeyringError × σ
  Delete : GoString → GoString → σ → Option KeyringError × σ

/-- Calls made by an operation, in order. -/
inductive Event where
  | Acquire (lockName : GoString) (opts : AcquireOptions)
  | Release (lock : LockHandle)
  | KeyringGet (service user : GoString)
  | KeyringSet (service user password : GoString)
  | KeyringDelete (service user : GoString)
  | Writeln (msg : GoString)
  | Exit
  deriving DecidableEq, Repr

/-- Modelled from the spec: `Exit`, declared outside `secret_keyring.go`,
terminates the process ("process-terminating", "fatal"), so the call that
reaches it never returns and no deferred function runs.  The other ways a call
ends are a return to the caller and a run-time panic. -/
inductive Outcome (α : Type) where
  | returned (a : α)
  | exited
  | panicked
  deriving DecidableEq, Repr

/-- Whether a call is a `Release` of the lock provider. -/
def Event.isRelease : Event → Bool
  | Event.Release _ => true
  | _ => false

/-- Whether a call is a `Get` or a `Set` of the secret store. -/
def Event.isStoreAccess : Event → Bool
  | Event.KeyringGet _ _ => true
  | Event.KeyringSet _ _ _ => true
  | _ => false

/-- Whether a call is a `Set` of the secret store. -/
def Event.isStoreWrite : Event → Bool
  | Event.KeyringSet _ _ _ => true
  | _ => false

/-- Whether a call goes to the lock provider or to the secret store. -/
def Event.isCollaboratorCall : Event → Bool
  | Event.Writeln _ => false
  | Event.Exit => false
  | _ => true

/-- What a call did: how it ended, the cache object afterwards, the world
afterwards and the calls it made. -/
structure Run (σ α : Type) where
  outcome : Outcome α
  store : KeyringStore
  world : σ
  events : List Event

/-- What the statements of `Load` or `Save` after the `defer` did, and whether
they left the receiver variable `s` nil: `json.Unmarshal(.., &s)` assigns to it,
and the deferred function reads `s.locker` through it. -/
structure Body (σ α : Type) where
  run : Run σ α
  receiverNil : Bool

/-- Errors returned by the operations, named after the taxonomy of the spec,
each with the message of the `fmt.Errorf` that builds it. -/
inductive Error where
  /-- `can't load secret due to locked now` / `can't save secret due to locked now` -/
  | LockError (cause : Option String)
  /-- `can't load secret due to unexpected error` -/
  | StoreReadError (cause : KeyringError)
  /-- `can't load secret due to broken data` / `... the broken data` -/
  | CorruptDataError (cause : UnmarshalError)
  /-- `can't marshal data` -/
  | SerializationError (cause : String)
  /-- `can't save secret` -/
  | StoreWriteError (cause : KeyringError)
  /-- `not found the credential for` the role -/
  | NotFoundError (roleArn : GoString)
  deriving DecidableEq, Repr

/-! ## The operations of `secret_keyring.go` -/

/-- The options of both `Acquire` calls: exclusive, three minutes. -/
def acquireOptions : AcquireOptions :=
  { Shared := false, Timeout := 3 * 60 * 1000000000 }

/-- Outcome of `NewKeyringStore`: `lockerErr` is the error of
`file_locker.NewFileLocker`, `user` the value of `os.Getenv("USER")`. -/
def NewKeyringStore (provider : GoString) (user : GoString) (lockerErr : Option String) :
    Outcome KeyringStore :=
  match lockerErr with
  | some _ => Outcome.exited
  | none =>
    Outcome.returned
      { lockResource := utf8 "aws-cli-oidc"
        user := user
        service := utf8 "aws-cli-oidc/" ++ provider
        AWSCredentials := some [] }

/-- The deferred function of `Load` and `Save`, applied to what the rest of the
body did.  It runs when the body returns or panics, not when the body has
terminated the process.  If `acquired`, it calls `s.locker.Release(lock)`: that
panics, before any `Release`, when the body left `s` nil; a failed release
terminates the process. -/
def deferred {σ α : Type} (c : Collab σ) (acquired : Bool) (lock : LockHandle)
    (b : Body σ α) : Run σ α :=
  match b.run.outcome with
  | Outcome.exited => b.run
  | _ =>
    if acquired then
      if b.receiverNil then
        { outcome := Outcome.panicked, store := b.run.store, world := b.run.world
          events := b.run.events }
      else
        match c.Release lock b.run.world with
        | (some _, w) =>
          { outcome := Outcome.exited, store := b.run.store, world := w
            events := b.run.events ++ [Event.Release lock, Event.Exit] }
        | (none, w) =>
          { outcome := b.run.outcome, store := b.run.store, world := w
            events := b.run.events ++ [Event.Release lock] }
    else b.run

/-- The body of `Load` after the `defer` statement. -/
def loadBody {σ : Type} (c : Collab σ) (s : KeyringStore) (acquired : Bool) (w1 : σ) :
    Body σ (Option Error) :=
  if !acquired then
    { run :=
        { outcome := Outcome.returned (some (Error.LockError none)), store := s, world := w1
          events := [Event.Acquire s.lockResource acquireOptions] }
      receiverNil := false }
  else
    match c.Get s.service s.user w1 with
    | ((jsonStr, gerr), w2) =>
      match gerr with
      | some e =>
        if e = KeyringError.ErrNotFound then
          { run :=
              { outcome := Outcome.returned none, store := s, world := w2
                events := [Event.Acquire s.lockResource acquireOptions,
                  Event.KeyringGet s.service s.user] }
            receiverNil := false }
        else
          { run :=
              { outcome := Outcome.returned (some (Error.StoreReadError e)), store := s
                world := w2
                events := [Event.Acquire s.lockResource acquireOptions,
                  Event.KeyringGet s.service s.user] }
            receiverNil := false }
      | none =>
        match Unmarshal jsonStr s with
        | (ptr, some e) =>
          { run :=
              { outcome := Outcome.returned (some (Error.CorruptDataError e))
                store := ptr.getD s, world := w2
                events := [Event.Acquire s.lockResource acquireOptions,
                  Event.KeyringGet s.service s.user] }
            receiverNil := ptr.isNone }
        | (ptr, none) =>
          { run :=
              { outcome := Outcome.returned none, store := ptr.getD s, world := w2
                events := [Event.Acquire s.lockResource acquireOptions,
                  Event.KeyringGet s.service s.user] }
            receiverNil := ptr.isNone }

/-- The method `Load`. -/
def Load {σ : Type} (c : Collab σ) (s : KeyringStore) (w : σ) : Run σ (Option Error) :=
  match c.Acquire s.lockResource acquireOptions w with
  | ((acquired, lock, err), w1) =>
    match err with
    | some e =>
      { outcome := Outcome.returned (some (Error.LockError (some e))), store := s, world := w1
        events := [Event.Acquire s.lockResource acquireOptions] }
    | none => deferred c acquired lock (loadBody c s acquired w1)

/-- The method `Get`.  `Cred` stands for the struct `AWSCredentials` and
`unmarshalCred` for `json.Unmarshal` into a fresh value of it; both are declared
outside `secret_keyring.go`.  `Get` receives no collaborator: the world is
handed back as it came. -/
def Get {σ Cred : Type} (unmarshalCred : GoString → Except UnmarshalError Cred)
    (s : KeyringStore) (roleArn : GoString) (w : σ) : Run σ (Except Error Cred) :=
  match mapIndex s.AWSCredentials roleArn with
  | none =>
    { outcome := Outcome.returned (Except.error (Error.NotFoundError roleArn)), store := s
      world := w, events := [] }
  | some jsonStr =>
    match unmarshalCred jsonStr with
    | Except.error e =>
      { outcome := Outcome.returned (Except.error (Error.CorruptDataError e)), store := s
        world := w
        events := [Event.Writeln (utf8 "Got credential from OS secret store for " ++ roleArn)] }
    | Except.ok cred =>
      { outcome := Outcome.returned (Except.ok cred), store := s, world := w
        events := [Event.Writeln (utf8 "Got credential from OS secret store for " ++ roleArn)] }

/-- The body of `Save` after the `defer` statement. -/
def saveBody {σ : Type} (c : Collab σ) (s : KeyringStore) (roleArn cred : GoString) (w1 : σ) :
    Body σ (Option Error) :=
  match c.Get s.service s.user w1 with
  | ((jsonStr, gerr), w2) =>
    if gerr ≠ none ∧ gerr ≠ some KeyringError.ErrNotFound then
      { run :=
          { outcome := Outcome.exited, store := s, world := w2
            events := [Event.Acquire s.lockResource acquireOptions,
              Event.KeyringGet s.service s.user, Event.Exit] }
        receiverNil := false }
    else
      match (if jsonStr ≠ [] then Unmarshal jsonStr s else (some s, none)) with
      | (ptr, some e) =>
        { run :=
            { outcome := Outcome.returned (some (Error.CorruptDataError e)), store := ptr.getD s
              world := w2
              events := [Event.Acquire s.lockResource acquireOptions,
                Event.KeyringGet s.service s.user] }
          receiverNil := ptr.isNone }
      | (none, none) =>
        -- `s` is nil: `s.AWSCredentials` is a nil pointer dereference
        { run :=
            { outcome := Outcome.panicked, store := s, world := w2
              events := [Event.Acquire s.lockResource acquireOptions,
                Event.KeyringGet s.service s.user] }
          receiverNil := true }
      | (some s1, none) =>
        match s1.AWSCredentials with
        | none =>
          -- assignment to an entry of a nil map
          { run :=
              { outcome := Outcome.panicked, store := s1, world := w2
                events := [Event.Acquire s.lockResource acquireOptions,
                  Event.KeyringGet s.service s.user] }
            receiverNil := false }
        | some m =>
          match Marshal { s1 with AWSCredentials := some (mapSet roleArn cred m) } with
          | Except.error e =>
            { run :=
                { outcome := Outcome.returned (some (Error.SerializationError e))
                  store := { s1 with AWSCredentials := some (mapSet roleArn cred m) }
                  world := w2
                  events := [Event.Acquire s.lockResource acquireOptions,
                    Event.KeyringGet s.service s.user] }
              receiverNil := false }
          | Except.ok newJsonStr =>
            match c.Set s1.service s1.user newJsonStr w2 with
            | (some e, w3) =>
              { run :=
                  { outcome := Outcome.returned (some (Error.StoreWriteError e))
                    store := { s1 with AWSCredentials := some (mapSet roleArn cred m) }
                    world := w3
                    events := [Event.Acquire s.lockResource acquireOptions,
                      Event.KeyringGet s.service s.user,
                      Event.KeyringSet s1.service s1.user newJsonStr] }
                receiverNil := false }
            | (none, w3) =>
              { run :=
                  { outcome := Outcome.returned none
                    store := { s1 with AWSCredentials := some (mapSet roleArn cred m) }
                    world := w3
                    events := [Event.Acquire s.lockResource acquireOptions,
                      Event.KeyringGet s.service s.user,
                      Event.KeyringSet s1.service s1.user newJsonStr] }
                receiverNil := false }

/-- The method `Save`.  Unlike `Load`, it has no `if !acquired` after the
`defer`. -/
def Save {σ : Type} (c : Collab σ) (s : KeyringStore) (roleArn cred : GoString) (w : σ) :
    Run σ (Option Error) :=
  match c.Acquire s.lockResource acquireOptions w with
  | ((acquired, lock, err), w1) =>
    match err with
    | some e =>
      { outcome := Outcome.returned (some (Error.LockError (some e))), store := s, world := w1
        events := [Event.Acquire s.lockResource acquireOptions] }
    | none => deferred c acquired lock (saveBody c s roleArn cred w1)

/-- The method `Clear`: the result of `keyring.Delete`, as it comes. -/
def Clear {σ : Type} (c : Collab σ) (s : KeyringStore) (w : σ) :
    Run σ (Option KeyringError) :=
  match c.Delete s.service s.user w with
  | (err, w1) =>
    { outcome := Outcome.returned err, store := s, world := w1
      events := [Event.KeyringDelete s.service s.user] }

/-! ## A secret store in memory -/

/-- The secrets of a store: the password under a service and a user, if any. -/
abbrev Secrets := GoString → GoString → Option GoString

/-- Store a password. -/
def Secrets.put (w : Secrets) (service user password : GoString) : Secrets :=
  fun sv us => if sv = service ∧ us = user then some password else w sv us

/-- Remove a password. -/
def Secrets.remove (w : Secrets) (service user : GoString) : Secrets :=
  fun sv us => if sv = service ∧ us = user then none else w sv us

/-- A secret store that works, behind a lock provider that answers every
`Acquire` with `acq` and releases without error: `Get` and `Delete` report
`ErrNotFound` exactly when no secret is stored under the key, `Set` stores. -/
def memCollab (acq : Bool × LockHandle × Option String) : Collab Secrets where
  Acquire := fun _ _ w => (acq, w)
  Release := fun _ w => (none, w)
  Get := fun service user w =>
    match w service user with
    | some password => ((password, none), w)
    | none => (([], some KeyringError.ErrNotFound), w)
  Set := fun service user password w => (none, w.put service user password)
  Delete := fun service user w =>
    match w service user with
    | some _ => (none, w.remove service user)
    | none => (some KeyringError.ErrNotFound, w)

/-- The lock is granted: `Acquire` answers `(true, lock, nil)`. -/
def granted (lock : LockHandle) : Bool × LockHandle × Option String := (true, lock, none)

/-- The cache with no fields set, into which `documentRoles` decodes. -/
def zeroStore : KeyringStore :=
  { lockResource := [], user := [], service := [], AWSCredentials := none }

/-- The role mapping a blob holds as a persisted document: what
`json.Unmarshal` stores into a zero `KeyringStore` when it reports no error, with
an absent or nil mapping read as the empty one.  `none` when the blob does not
deserialize or is the literal `null`. -/
def documentRoles (blob : GoString) : Option GoMap :=
  match Unmarshal blob zeroStore with
  | (some s, none) => some (s.AWSCredentials.getD [])
  | _ => none

/-! ## Notions used in the statements below -/

/-- Whether a JSON value is `null`. -/
def Json.isNull : Json → Bool
  | Json.null => true
  | _ => false

/-- Whether a JSON value is an object. -/
def Json.isObject : Json → Bool
  | Json.obj _ => true
  | _ => false

/-- Whether a blob is a JSON object with a `credentials` member that is `null`:
decoding such a member makes the map of the cache nil, whatever it held. -/
def resetsCredentials (blob : GoString) : Bool :=
  match parseJson blob with
  | some (Json.obj ms) => ms.any (fun kv => matchesCredentials kv.1 && kv.2.isNull)
  | _ => false

/-- Whether a blob is a JSON object with a `credentials` member that is an object
or `null`: the members `json.Unmarshal` stores into the map of the cache. -/
def touchesCredentials (blob : GoString) : Bool :=
  match parseJson blob with
  | some (Json.obj ms) =>
    ms.any (fun kv => matchesCredentials kv.1 && (kv.2.isNull || kv.2.isObject))
  | _ => false

/-- Every key of the map is well-formed UTF-8 (a nil map has no key). -/
def KeysWellFormed (m : Option GoMap) : Prop :=
  ∀ kv ∈ m.getD [], WellFormed kv.1

/-- Every string of a JSON value, key or value, is well-formed UTF-8. -/
inductive JsonWF : Json → Prop where
  | null : JsonWF Json.null
  | bool (b : Bool) : JsonWF (Json.bool b)
  | num : JsonWF Json.num
  | str (s : GoString) : WellFormed s → JsonWF (Json.str s)
  | arr (xs : List Json) : (∀ x ∈ xs, JsonWF x) → JsonWF (Json.arr xs)
  | obj (kvs : List (GoString × Json)) :
      (∀ kv ∈ kvs, WellFormed kv.1) → (∀ kv ∈ kvs, JsonWF kv.2) → JsonWF (Json.obj kvs)

/-- The JSON members `json.Marshal` writes for the keys `ks` of a map, as they are
read back: keys and values coerced to well-formed UTF-8. -/
def memberValues (m : GoMap) (ks : List GoString) : List (GoString × Json) :=
  ks.map (fun k => (coerceUTF8 k, Json.str (coerceUTF8 ((mapGet k m).getD []))))

/-- The document `json.Marshal` writes for a cache with an allocated map. -/
def marshalled (m : GoMap) : GoString :=
  utf8 "\x7b\"credentials\":" ++ encodeMap (some m) ++ utf8 "\x7d"

/-- A reader of one value that leaves less than it was given. -/
def Shrinks (pv : GoString → Option (Json × GoString)) : Prop :=
  ∀ x j r, pv x = some (j, r) → r.length < x.length

/-- A reader of one value whose strings are all well-formed UTF-8. -/
def WFReader (pv : GoString → Option (Json × GoString)) : Prop :=
  ∀ x j r, pv x = some (j, r) → JsonWF j

/-- The map `x` is the map `y`, or `y` laid over the entries `E`. -/
def Overlays (E x y : Option GoMap) : Prop :=
  x = y ∨ ∀ a, mapIndex x a = (mapIndex y a).or (mapIndex E a)

/-! ## Inputs of the worked examples -/

/-- A lock handle for the worked examples. -/
def exampleLock : LockHandle := { UUID := utf8 "4f6c", LockName := utf8 "aws-cli-oidc" }

/-- A freshly constructed cache of provider `p` for user `alice`. -/
def exampleStore : KeyringStore :=
  { lockResource := utf8 "aws-cli-oidc", user := utf8 "alice", service := utf8 "aws-cli-oidc/p"
    AWSCredentials := some [] }

/-- The same cache holding one entry in memory. -/
def exampleStoreZ : KeyringStore :=
  { lockResource := utf8 "aws-cli-oidc", user := utf8 "alice", service := utf8 "aws-cli-oidc/p"
    AWSCredentials := some [(utf8 "Z", utf8 "z")] }

/-- The same cache holding in memory one entry whose key is the byte `0xff`, not
well-formed UTF-8: what a cache is left with by `Save` under such a role. -/
def exampleStoreRaw : KeyringStore :=
  { lockResource := utf8 "aws-cli-oidc", user := utf8 "alice", service := utf8 "aws-cli-oidc/p"
    AWSCredentials := some [([byte 0xff], utf8 "stale")] }

/-- A secret store holding nothing. -/
def emptySecrets : Secrets := fun _ _ => none

/-- A secret store holding `blob` for the example cache. -/
def secretsWith (blob : GoString) : Secrets :=
  emptySecrets.put (utf8 "aws-cli-oidc/p") (utf8 "alice") blob

/-! ## Decoding and encoding runes -/

theorem byte_val (n : Nat) : (byte n).val = n % 256 := rfl

theorem byte_of_val (b : Byte) : byte b.val = b := by
  apply Fin.ext
  rw [byte_val]
  exact Nat.mod_eq_of_lt b.isLt

theorem decodeRune_one (b0 : Byte) (x : GoString) (h : b0.val < 0x80) :
    decodeRune (b0 :: x) = (b0.val, 1) := by
  simp only [decodeRune, h, if_true]

theorem decodeRune_two (b0 b1 : Byte) (x : GoString) (h0 : 0xc2 ≤ b0.val) (h1 : b0.val < 0xe0)
    (h2 : 0x80 ≤ b1.val) (h3 : b1.val ≤ 0xbf) :
    decodeRune (b0 :: b1 :: x) = ((b0.val - 0xc0) * 64 + (b1.val - 0x80), 2) := by
  have c : inRange 0x80 0xbf b1 = true := by
    simp only [inRange, Bool.and_eq_true, decide_eq_true_eq]; omega
  rw [decodeRune, if_neg (by omega), if_neg (by omega), if_pos h1]
  simp only [c, if_true]

theorem decodeRune_three (b0 b1 b2 : Byte) (x : GoString) (h0 : 0xe0 ≤ b0.val)
    (h1 : b0.val < 0xf0)
    (h2 : (if b0.val = 0xe0 then 0xa0 else 0x80) ≤ b1.val)
    (h3 : b1.val ≤ (if b0.val = 0xed then 0x9f else 0xbf))
    (h4 : 0x80 ≤ b2.val) (h5 : b2.val ≤ 0xbf) :
    decodeRune (b0 :: b1 :: b2 :: x)
      = (((b0.val - 0xe0) * 64 + (b1.val - 0x80)) * 64 + (b2.val - 0x80), 3) := by
  have c : (inRange (if b0.val = 0xe0 then 0xa0 else 0x80)
      (if b0.val = 0xed then 0x9f else 0xbf) b1 && inRange 0x80 0xbf b2) = true := by
    simp only [inRange, Bool.and_eq_true, decide_eq_true_eq]
    exact ⟨⟨h2, h3⟩, h4, h5⟩
  rw [decodeRune, if_neg (by omega), if_neg (by omega), if_neg (by omega), if_pos h1]
  simp only [c, if_true]

theorem decodeRune_four (b0 b1 b2 b3 : Byte) (x : GoString) (h0 : 0xf0 ≤ b0.val)
    (h1 : b0.val < 0xf5)
    (h2 : (if b0.val = 0xf0 then 0x90 else 0x80) ≤ b1.val)
    (h3 : b1.val ≤ (if b0.val = 0xf4 then 0x8f else 0xbf))
    (h4 : 0x80 ≤ b2.val) (h5 : b2.val ≤ 0xbf) (h6 : 0x80 ≤ b3.val) (h7 : b3.val ≤ 0xbf) :
    decodeRune (b0 :: b1 :: b2 :: b3 :: x)
      = ((((b0.val - 0xf0) * 64 + (b1.val - 0x80)) * 64 + (b2.val - 0x80)) * 64
          + (b3.val - 0x80), 4) := by
  have c : (inRange (if b0.val = 0xf0 then 0x90 else 0x80)
      (if b0.val = 0xf4 then 0x8f else 0xbf) b1 && inRange 0x80 0xbf b2
      && inRange 0x80 0xbf b3) = true := by
    simp only [inRange, Bool.and_eq_true, decide_eq_true_eq]
    exact ⟨⟨⟨h2, h3⟩, h4, h5⟩, h6, h7⟩
  rw [decodeRune, if_neg (by omega), if_neg (by omega), if_neg (by omega), if_neg (by omega),
    if_pos h1]
  simp only [c, if_true]

/-- Decoding undoes encoding: the first rune of `encodeRune r ++ x` is `r`, for
every scalar value `r`. -/
theorem decodeRune_encodeRune (r : Nat) (h : isScalar r) (x : GoString) :
    decodeRune (encodeRune r ++ x) = (r, (encodeRune r).length) := by
  unfold isScalar at h
  unfold encodeRune
  by_cases h1 : r < 0x80
  · simp only [h1, if_true, List.singleton_append, List.length_singleton]
    rw [decodeRune_one _ _ (by rw [byte_val]; omega), byte_val]
    simp only [Prod.mk.injEq, and_true]
    omega
  · by_cases h2 : r < 0x800
    · simp only [h1, h2, if_true, if_false, List.cons_append, List.nil_append, List.length_cons,
        List.length_nil]
      rw [decodeRune_two _ _ _ (by rw [byte_val]; omega) (by rw [byte_val]; omega)
        (by rw [byte_val]; omega) (by rw [byte_val]; omega)]
      simp only [byte_val, Prod.mk.injEq, and_true]
      omega
    · have h3 : ¬(0x10ffff < r ∨ (0xd800 ≤ r ∧ r < 0xe000)) := by omega
      by_cases h4 : r < 0x10000
      · simp only [h1, h2, h3, h4, if_true, if_false, List.cons_append, List.nil_append,
          List.length_cons, List.length_nil]
        rw [decodeRune_three _ _ _ _ (by rw [byte_val]; omega) (by rw [byte_val]; omega)
          (by simp only [byte_val]; split <;> omega) (by simp only [byte_val]; split <;> omega)
          (by rw [byte_val]; omega) (by rw [byte_val]; omega)]
        simp only [byte_val, Prod.mk.injEq, and_true]
        omega
      · simp only [h1, h2, h3, h4, if_true, if_false, List.cons_append, List.nil_append,
          List.length_cons, List.length_nil]
        rw [decodeRune_four _ _ _ _ _ (by rw [byte_val]; omega) (by rw [byte_val]; omega)
          (by simp only [byte_val]; split <;> omega) (by simp only [byte_val]; split <;> omega)
          (by rw [byte_val]; omega) (by rw [byte_val]; omega)
          (by rw [byte_val]; omega) (by rw [byte_val]; omega)]
        simp only [byte_val, Prod.mk.injEq, and_true]
        omega

/-- The ways `decodeRune` answers on a string whose first byte is not ASCII. -/
theorem decodeRune_cases (b0 : Byte) (rest : GoString) (r size : Nat) (h80 : ¬b0.val < 0x80)
    (h : decodeRune (b0 :: rest) = (r, size)) :
    (r = 0xfffd ∧ size = 1) ∨
    (∃ b1 tl, rest = b1 :: tl ∧ 0xc2 ≤ b0.val ∧ b0.val < 0xe0 ∧ 0x80 ≤ b1.val ∧ b1.val ≤ 0xbf ∧
      r = (b0.val - 0xc0) * 64 + (b1.val - 0x80) ∧ size = 2) ∨
    (∃ b1 b2 tl, rest = b1 :: b2 :: tl ∧ 0xe0 ≤ b0.val ∧ b0.val < 0xf0 ∧
      (if b0.val = 0xe0 then 0xa0 else 0x80) ≤ b1.val ∧
      b1.val ≤ (if b0.val = 0xed then 0x9f else 0xbf) ∧ 0x80 ≤ b2.val ∧ b2.val ≤ 0xbf ∧
      r = ((b0.val - 0xe0) * 64 + (b1.val - 0x80)) * 64 + (b2.val - 0x80) ∧ size = 3) ∨
    (∃ b1 b2 b3 tl, rest = b1 :: b2 :: b3 :: tl ∧ 0xf0 ≤ b0.val ∧ b0.val < 0xf5 ∧
      (if b0.val = 0xf0 then 0x90 else 0x80) ≤ b1.val ∧
      b1.val ≤ (if b0.val = 0xf4 then 0x8f else 0xbf) ∧ 0x80 ≤ b2.val ∧ b2.val ≤ 0xbf ∧
      0x80 ≤ b3.val ∧ b3.val ≤ 0xbf ∧
      r = (((b0.val - 0xf0) * 64 + (b1.val - 0x80)) * 64 + (b2.val - 0x80)) * 64
        + (b3.val - 0x80) ∧ size = 4) := by
  by_cases hc2 : b0.val < 0xc2
  · left
    cases rest <;> simp only [decodeRune, h80, hc2, if_true, if_false] at h <;> cases h <;>
      exact ⟨rfl, rfl⟩
  · by_cases he0 : b0.val < 0xe0
    · cases rest with
      | nil =>
        left
        simp only [decodeRune, h80, hc2, he0, if_true, if_false] at h
        cases h; exact ⟨rfl, rfl⟩
      | cons b1 tl =>
        simp only [decodeRune, h80, hc2, he0, if_true, if_false] at h
        by_cases hr : inRange 0x80 0xbf b1 = true
        · rw [if_pos hr] at h
          simp only [inRange, Bool.and_eq_true, decide_eq_true_eq] at hr
          simp only [Prod.mk.injEq] at h
          obtain ⟨h1, h2⟩ := h
          subst h1 h2
          right; left
          exact ⟨b1, tl, rfl, Nat.le_of_not_lt hc2, he0, hr.1, hr.2, rfl, rfl⟩
        · rw [if_neg hr] at h
          left; cases h; exact ⟨rfl, rfl⟩
    · by_cases hf0 : b0.val < 0xf0
      · match rest, h with
        | [], h =>
          left
          simp only [decodeRune, h80, hc2, he0, hf0, if_true, if_false] at h
          cases h; exact ⟨rfl, rfl⟩
        | [_], h =>
          left
          simp only [decodeRune, h80, hc2, he0, hf0, if_true, if_false] at h
          cases h; exact ⟨rfl, rfl⟩
        | b1 :: b2 :: tl, h =>
          simp only [decodeRune, h80, hc2, he0, hf0, if_true, if_false] at h
          by_cases hr : (inRange (if b0.val = 0xe0 then 0xa0 else 0x80)
              (if b0.val = 0xed then 0x9f else 0xbf) b1 && inRange 0x80 0xbf b2) = true
          · rw [if_pos hr] at h
            simp only [inRange, Bool.and_eq_true, decide_eq_true_eq] at hr
            simp only [Prod.mk.injEq] at h
            obtain ⟨h1, h2⟩ := h
            subst h1 h2
            right; right; left
            exact ⟨b1, b2, tl, rfl, Nat.le_of_not_lt he0, hf0, hr.1.1, hr.1.2, hr.2.1, hr.2.2,
              rfl, rfl⟩
          · rw [if_neg hr] at h
            left; cases h; exact ⟨rfl, rfl⟩
      · by_cases hf5 : b0.val < 0xf5
        · match rest, h with
          | [], h =>
            left
            simp only [decodeRune, h80, hc2, he0, hf0, hf5, if_true, if_false] at h
            cases h; exact ⟨rfl, rfl⟩
          | [_], h =>
            left
            simp only [decodeRune, h80, hc2, he0, hf0, hf5, if_true, if_false] at h
            cases h; exact ⟨rfl, rfl⟩
          | [_, _], h =>
            left
            simp only [decodeRune, h80, hc2, he0, hf0, hf5, if_true, if_false] at h
            cases h; exact ⟨rfl, rfl⟩
          | b1 :: b2 :: b3 :: tl, h =>
            simp only [decodeRune, h80, hc2, he0, hf0, hf5, if_true, if_false] at h
            by_cases hr : (inRange (if b0.val = 0xf0 then 0x90 else 0x80)
                (if b0.val = 0xf4 then 0x8f else 0xbf) b1 && inRange 0x80 0xbf b2
                && inRange 0x80 0xbf b3) = true
            · rw [if_pos hr] at h
              simp only [inRange, Bool.and_eq_true, decide_eq_true_eq] at hr
              simp only [Prod.mk.injEq] at h
              obtain ⟨h1, h2⟩ := h
              subst h1 h2
              right; right; right
              exact ⟨b1, b2, b3, tl, rfl, Nat.le_of_not_lt hf0, hf5, hr.1.1.1, hr.1.1.2,
                hr.1.2.1, hr.1.2.2, hr.2.1, hr.2.2, rfl, rfl⟩
            · rw [if_neg hr] at h
              left; cases h; exact ⟨rfl, rfl⟩
        · left
          cases rest <;>
            simp only [decodeRune, h80, hc2, he0, hf0, hf5, if_true, if_false] at h <;>
            cases h <;> exact ⟨rfl, rfl⟩

set_option maxRecDepth 8192 in
/-- A rune that `decodeRune` reads from a string starting beyond ASCII, when it is
not the answer to an ill-formed byte: it is a scalar value beyond ASCII, the
bytes read are there, and they alone decide the answer. -/
theorem decodeRune_valid (b0 : Byte) (rest : GoString) (r size : Nat) (h80 : ¬b0.val < 0x80)
    (h : decodeRune (b0 :: rest) = (r, size)) (hne : ¬(r = 0xfffd ∧ size = 1)) :
    isScalar r ∧ 0x80 ≤ r ∧ 1 ≤ size ∧ size - 1 ≤ rest.length ∧
    ((b0 :: rest).take size).length = size ∧
    ∀ x, decodeRune ((b0 :: rest).take size ++ x) = (r, size) := by
  rcases decodeRune_cases b0 rest r size h80 h with h | h | h | h
  · exact absurd h hne
  · obtain ⟨b1, tl, hrest, h0, h1, h2, h3, hr, hs⟩ := h
    clear h hne
    subst hrest hr hs
    have ht : (b0 :: b1 :: tl).take 2 = [b0, b1] := rfl
    rw [ht]
    refine ⟨?_, ?_, by omega, ?_, rfl, fun x => ?_⟩
    · unfold isScalar; omega
    · omega
    · simp only [List.length_cons]; omega
    · exact decodeRune_two b0 b1 _ h0 h1 h2 h3
  · obtain ⟨b1, b2, tl, hrest, h0, h1, h2, h3, h4, h5, hr, hs⟩ := h
    clear h hne
    subst hrest hr hs
    have ht : (b0 :: b1 :: b2 :: tl).take 3 = [b0, b1, b2] := rfl
    rw [ht]
    refine ⟨?_, ?_, by omega, ?_, rfl, fun x => ?_⟩
    · unfold isScalar
      by_cases e0 : b0.val = 0xe0 <;> by_cases ed : b0.val = 0xed <;>
        simp only [e0, ed, if_true, if_false] at h2 h3 <;> omega
    · by_cases e0 : b0.val = 0xe0 <;> simp only [e0, if_true, if_false] at h2 <;> omega
    · simp only [List.length_cons]; omega
    · exact decodeRune_three b0 b1 b2 _ h0 h1 h2 h3 h4 h5
  · obtain ⟨b1, b2, b3, tl, hrest, h0, h1, h2, h3, h4, h5, h6, h7, hr, hs⟩ := h
    clear h hne
    subst hrest hr hs
    have ht : (b0 :: b1 :: b2 :: b3 :: tl).take 4 = [b0, b1, b2, b3] := rfl
    rw [ht]
    refine ⟨?_, ?_, by omega, ?_, rfl, fun x => ?_⟩
    · unfold isScalar
      by_cases e0 : b0.val = 0xf0 <;> by_cases ed : b0.val = 0xf4 <;>
        simp only [e0, ed, if_true, if_false] at h2 h3 <;> omega
    · by_cases e0 : b0.val = 0xf0 <;> simp only [e0, if_true, if_false] at h2 <;> omega
    · simp only [List.length_cons]; omega
    · exact decodeRune_four b0 b1 b2 b3 _ h0 h1 h2 h3 h4 h5 h6 h7

theorem decodeRune_size (b0 : Byte) (rest : GoString) (r size : Nat)
    (h : decodeRune (b0 :: rest) = (r, size)) : 1 ≤ size ∧ size - 1 ≤ rest.length := by
  by_cases h80 : b0.val < 0x80
  · rw [decodeRune_one _ _ h80] at h
    cases h
    exact ⟨Nat.le_refl _, Nat.zero_le _⟩
  · by_cases hne : r = 0xfffd ∧ size = 1
    · rw [hne.2]; exact ⟨Nat.le_refl _, Nat.zero_le _⟩
    · have := decodeRune_valid b0 rest r size h80 h hne
      exact ⟨this.2.2.1, this.2.2.2.1⟩

theorem isScalar_fffd : isScalar 0xfffd := by unfold isScalar; omega

theorem decodeRune_scalar (b0 : Byte) (rest : GoString) (r size : Nat)
    (h : decodeRune (b0 :: rest) = (r, size)) : isScalar r := by
  by_cases h80 : b0.val < 0x80
  · rw [decodeRune_one _ _ h80] at h
    simp only [Prod.mk.injEq] at h
    unfold isScalar; omega
  · by_cases hne : r = 0xfffd ∧ size = 1
    · rw [hne.1]; exact isScalar_fffd
    · exact (decodeRune_valid b0 rest r size h80 h hne).1

/-! ## The bounds of the parser are enough -/

theorem skipSpace_length (cs : GoString) : (skipSpace cs).length ≤ cs.length := by
  induction cs with
  | nil => simp [skipSpace]
  | cons c cs ih =>
    unfold skipSpace
    split
    · simp only [List.length_cons]; omega
    · exact Nat.le_refl _

theorem hex4_length (cs : GoString) (r : Nat) (rest : GoString)
    (h : hex4 cs = some (r, rest)) : rest.length + 4 = cs.length := by
  unfold hex4 at h
  split at h
  · split at h
    · cases h; simp
    · cases h
  · cases h

theorem getu4_length (cs : GoString) (r : Nat) (rest : GoString)
    (h : getu4 cs = some (r, rest)) : rest.length + 6 = cs.length := by
  unfold getu4 at h
  split at h
  · split at h
    · have := hex4_length _ _ _ h
      simp only [List.length_cons]; omega
    · cases h
  · cases h

theorem consBytes_eq_some (c : GoString) (o : Option (GoString × GoString)) (s rest : GoString)
    (h : consBytes c o = some (s, rest)) : ∃ s1, o = some (s1, rest) := by
  cases o with
  | none => cases h
  | some p =>
    obtain ⟨s1, r1⟩ := p
    simp only [consBytes, Option.some.injEq, Prod.mk.injEq] at h
    exact ⟨s1, by rw [h.2]⟩

/-- What `unquote` leaves is shorter than what it was given. -/
theorem unquote_length : ∀ (n : Nat) (cs s rest : GoString),
    unquote n cs = some (s, rest) → rest.length < cs.length := by
  intro n
  induction n with
  | zero => intro cs s rest h; cases h
  | succ n ih =>
    intro cs s rest h
    cases cs with
    | nil => cases h
    | cons c cs =>
      unfold unquote at h
      split at h
      · cases h; simp
      · split at h
        · split at h
          · cases h
          · rename_i e cs1
            split at h
            · split at h
              · cases h
              · rename_i r cs2 hh
                have h4 := hex4_length _ _ _ hh
                split at h
                · split at h
                  · rename_i r2 cs3 hg
                    have h6 := getu4_length _ _ _ hg
                    split at h
                    · obtain ⟨s1, h1⟩ := consBytes_eq_some _ _ _ _ h
                      have := ih _ _ _ h1
                      simp only [List.length_cons]; omega
                    · obtain ⟨s1, h1⟩ := consBytes_eq_some _ _ _ _ h
                      have := ih _ _ _ h1
                      simp only [List.length_cons]; omega
                  · obtain ⟨s1, h1⟩ := consBytes_eq_some _ _ _ _ h
                    have := ih _ _ _ h1
                    simp only [List.length_cons]; omega
                · obtain ⟨s1, h1⟩ := consBytes_eq_some _ _ _ _ h
                  have := ih _ _ _ h1
                  simp only [List.length_cons]; omega
            · split at h
              · cases h
              · obtain ⟨s1, h1⟩ := consBytes_eq_some _ _ _ _ h
                have := ih _ _ _ h1
                simp only [List.length_cons]; omega
        · split at h
          · cases h
          · split at h
            · obtain ⟨s1, h1⟩ := consBytes_eq_some _ _ _ _ h
              have := ih _ _ _ h1
              simp only [List.length_cons]; omega
            · obtain ⟨s1, h1⟩ := consBytes_eq_some _ _ _ _ h
              have := ih _ _ _ h1
              simp only [List.length_drop, List.length_cons] at this ⊢; omega

/-- The bound given to `unquote` is enough once it reaches the length of the
input: a larger bound changes nothing. -/
theorem unquote_fuel : ∀ (n m : Nat) (cs : GoString),
    cs.length ≤ n → cs.length ≤ m → unquote n cs = unquote m cs := by
  intro n
  induction n with
  | zero =>
    intro m cs hn _
    have : cs = [] := List.length_eq_zero.1 (by omega)
    subst this
    cases m <;> rfl
  | succ n ih =>
    intro m cs hn hm
    cases cs with
    | nil => cases m <;> rfl
    | cons c cs =>
      cases m with
      | zero => simp at hm
      | succ m =>
        simp only [List.length_cons] at hn hm
        have e : ∀ X : GoString, X.length ≤ cs.length → unquote n X = unquote m X :=
          fun X hX => ih m X (by omega) (by omega)
        simp only [unquote]
        split
        · rfl
        · split
          · cases cs with
            | nil => rfl
            | cons e1 cs1 =>
              simp only
              split
              · cases hh : hex4 cs1 with
                | none => rfl
                | some p =>
                  obtain ⟨r, cs2⟩ := p
                  have h4 := hex4_length _ _ _ hh
                  simp only
                  split
                  · cases hg : getu4 cs2 with
                    | none =>
                      simp only
                      rw [e cs2 (by simp only [List.length_cons]; omega)]
                    | some q =>
                      obtain ⟨r2, cs3⟩ := q
                      have h6 := getu4_length _ _ _ hg
                      simp only
                      rw [e cs2 (by simp only [List.length_cons]; omega),
                        e cs3 (by simp only [List.length_cons]; omega)]
                  · rw [e cs2 (by simp only [List.length_cons]; omega)]
              · cases simpleEscape e1 with
                | none => rfl
                | some ch =>
                  simp only
                  rw [e cs1 (by simp)]
          · split
            · rfl
            · split
              · rw [e cs (Nat.le_refl _)]
              · rw [e _ (by simp only [List.length_drop]; omega)]

theorem skipDigits_length (cs : GoString) : (skipDigits cs).length ≤ cs.length := by
  induction cs with
  | nil => simp [skipDigits]
  | cons c cs ih =>
    simp only [skipDigits]
    split
    · simp only [List.length_cons]; omega
    · exact Nat.le_refl _

theorem digits1_length (cs r : GoString) (h : digits1 cs = some r) : r.length < cs.length := by
  cases cs with
  | nil => cases h
  | cons c cs =>
    simp only [digits1] at h
    split at h
    · cases h
      have := skipDigits_length cs
      simp only [List.length_cons]; omega
    · cases h

theorem scanExponent_length (cs r : GoString) (h : scanExponent cs = some r) :
    r.length ≤ cs.length := by
  cases cs with
  | nil => cases h; exact Nat.le_refl _
  | cons c cs =>
    simp only [scanExponent] at h
    split at h
    · cases cs with
      | nil => cases h
      | cons s cs1 =>
        simp only at h
        split at h
        · have := digits1_length _ _ h
          simp only [List.length_cons] at this ⊢; omega
        · have := digits1_length _ _ h
          simp only [List.length_cons] at this ⊢; omega
    · cases h; exact Nat.le_refl _

theorem scanFraction_length (cs r : GoString) (h : scanFraction cs = some r) :
    r.length ≤ cs.length := by
  cases cs with
  | nil => cases h; exact Nat.le_refl _
  | cons c cs =>
    simp only [scanFraction] at h
    split at h
    · cases hd : digits1 cs with
      | none => rw [hd] at h; cases h
      | some rest =>
        rw [hd] at h
        have h1 := digits1_length _ _ hd
        have h2 := scanExponent_length _ _ h
        simp only [List.length_cons]; omega
    · exact scanExponent_length _ _ h

theorem scanInteger_length (cs r : GoString) (h : scanInteger cs = some r) :
    r.length < cs.length := by
  cases cs with
  | nil => cases h
  | cons c cs =>
    simp only [scanInteger] at h
    split at h
    · have := scanFraction_length _ _ h
      simp only [List.length_cons]; omega
    · split at h
      · have h1 := scanFraction_length _ _ h
        have h2 := skipDigits_length cs
        simp only [List.length_cons]; omega
      · cases h

theorem scanNumber_length (cs r : GoString) (h : scanNumber cs = some r) :
    r.length < cs.length := by
  cases cs with
  | nil => cases h
  | cons c cs =>
    simp only [scanNumber] at h
    split at h
    · have := scanInteger_length _ _ h
      simp only [List.length_cons]; omega
    · exact scanInteger_length _ _ h

theorem expectWord_length : ∀ (ws cs r : GoString), expectWord ws cs = some r →
    r.length ≤ cs.length := by
  intro ws
  induction ws with
  | nil => intro cs r h; cases h; exact Nat.le_refl _
  | cons x ws ih =>
    intro cs r h
    cases cs with
    | nil => cases h
    | cons c cs =>
      simp only [expectWord] at h
      split at h
      · have := ih _ _ h
        simp only [List.length_cons]; omega
      · cases h

theorem skipSpace_eq_cons_length (cs : GoString) (c : Byte) (r : GoString)
    (h : skipSpace cs = c :: r) : r.length < cs.length := by
  have := skipSpace_length cs
  rw [h] at this
  simp only [List.length_cons] at this
  omega

theorem parseElements_length (pv : GoString → Option (Json × GoString)) (hpv : Shrinks pv) :
    ∀ (n : Nat) (cs : GoString) (vs : List Json) (r : GoString),
      parseElements pv n cs = some (vs, r) → r.length < cs.length := by
  intro n
  induction n with
  | zero => intro cs vs r h; cases h
  | succ n ih =>
    intro cs vs r h
    unfold parseElements at h
    cases hp : pv cs with
    | none => rw [hp] at h; cases h
    | some p =>
      obtain ⟨v, r0⟩ := p
      rw [hp] at h
      have h0 := hpv _ _ _ hp
      simp only at h
      cases hs : skipSpace r0 with
      | nil => rw [hs] at h; cases h
      | cons c r1 =>
        rw [hs] at h
        have h1 := skipSpace_eq_cons_length _ _ _ hs
        simp only at h
        split at h
        · cases hr : parseElements pv n r1 with
          | none => rw [hr] at h; cases h
          | some q =>
            obtain ⟨vs1, r2⟩ := q
            rw [hr] at h
            cases h
            have := ih _ _ _ hr
            omega
        · split at h
          · cases h; omega
          · cases h

theorem parseMembers_length (pv : GoString → Option (Json × GoString)) (hpv : Shrinks pv) :
    ∀ (n : Nat) (cs : GoString) (ms : List (GoString × Json)) (r : GoString),
      parseMembers pv n cs = some (ms, r) → r.length < cs.length := by
  intro n
  induction n with
  | zero => intro cs ms r h; cases h
  | succ n ih =>
    intro cs ms r h
    unfold parseMembers at h
    cases hs0 : skipSpace cs with
    | nil => rw [hs0] at h; cases h
    | cons q r0 =>
      rw [hs0] at h
      have h0 := skipSpace_eq_cons_length _ _ _ hs0
      simp only at h
      split at h
      · cases hu : unquote r0.length r0 with
        | none => rw [hu] at h; cases h
        | some p =>
          obtain ⟨k, r1⟩ := p
          rw [hu] at h
          have h1 := unquote_length _ _ _ _ hu
          simp only at h
          cases hs1 : skipSpace r1 with
          | nil => rw [hs1] at h; cases h
          | cons c r2 =>
            rw [hs1] at h
            have h2 := skipSpace_eq_cons_length _ _ _ hs1
            simp only at h
            split at h
            · cases hp : pv r2 with
              | none => rw [hp] at h; cases h
              | some p =>
                obtain ⟨v, r3⟩ := p
                rw [hp] at h
                have h3 := hpv _ _ _ hp
                simp only at h
                cases hs3 : skipSpace r3 with
                | nil => rw [hs3] at h; cases h
                | cons d r4 =>
                  rw [hs3] at h
                  have h4 := skipSpace_eq_cons_length _ _ _ hs3
                  simp only at h
                  split at h
                  · cases hr : parseMembers pv n r4 with
                    | none => rw [hr] at h; cases h
                    | some q =>
                      obtain ⟨ms1, r5⟩ := q
                      rw [hr] at h
                      cases h
                      have := ih _ _ _ hr
                      omega
                  · split at h
                    · cases h; omega
                    · cases h
            · cases h
      · cases h

/-- What `parseValue` leaves is shorter than what it was given. -/
theorem parseValue_length : ∀ (fuel depth : Nat), Shrinks (parseValue fuel depth) := by
  intro fuel
  induction fuel with
  | zero => intro depth x j r h; cases h
  | succ fuel ih =>
    intro depth x j r h
    rw [parseValue] at h
    cases hs : skipSpace x with
    | nil => rw [hs] at h; cases h
    | cons c r0 =>
      rw [hs] at h
      have h0 := skipSpace_eq_cons_length _ _ _ hs
      simp only at h
      split at h
      · split at h
        · cases hs1 : skipSpace r0 with
          | nil => rw [hs1] at h; cases h
          | cons c1 r1 =>
            rw [hs1] at h
            have h1 := skipSpace_eq_cons_length _ _ _ hs1
            simp only at h
            split at h
            · cases h; omega
            · cases hm : parseMembers (parseValue fuel (depth + 1)) fuel (c1 :: r1) with
              | none => rw [hm] at h; cases h
              | some p =>
                obtain ⟨ms, r2⟩ := p
                rw [hm] at h
                cases h
                have := parseMembers_length _ (ih (depth + 1)) _ _ _ _ hm
                simp only [List.length_cons] at this
                omega
        · cases h
      · split at h
        · split at h
          · cases hs1 : skipSpace r0 with
            | nil => rw [hs1] at h; cases h
            | cons c1 r1 =>
              rw [hs1] at h
              have h1 := skipSpace_eq_cons_length _ _ _ hs1
              simp only at h
              split at h
              · cases h; omega
              · cases hm : parseElements (parseValue fuel (depth + 1)) fuel (c1 :: r1) with
                | none => rw [hm] at h; cases h
                | some p =>
                  obtain ⟨vs, r2⟩ := p
                  rw [hm] at h
                  cases h
                  have := parseElements_length _ (ih (depth + 1)) _ _ _ _ hm
                  simp only [List.length_cons] at this
                  omega
          · cases h
        · split at h
          · cases hu : unquote r0.length r0 with
            | none => rw [hu] at h; cases h
            | some p =>
              obtain ⟨s1, r1⟩ := p
              rw [hu] at h
              cases h
              have := unquote_length _ _ _ _ hu
              omega
          · split at h
            · cases he : expectWord [ch 'r', ch 'u', ch 'e'] r0 with
              | none => rw [he] at h; cases h
              | some r1 =>
                rw [he] at h
                cases h
                have := expectWord_length _ _ _ he
                omega
            · split at h
              · cases he : expectWord [ch 'a', ch 'l', ch 's', ch 'e'] r0 with
                | none => rw [he] at h; cases h
                | some r1 =>
                  rw [he] at h
                  cases h
                  have := expectWord_length _ _ _ he
                  omega
              · split at h
                · cases he : expectWord [ch 'u', ch 'l', ch 'l'] r0 with
                  | none => rw [he] at h; cases h
                  | some r1 =>
                    rw [he] at h
                    cases h
                    have := expectWord_length _ _ _ he
                    omega
                · cases hn : scanNumber (c :: r0) with
                  | none => rw [hn] at h; cases h
                  | some r1 =>
                    rw [hn] at h
                    cases h
                    have := scanNumber_length _ _ hn
                    simp only [List.length_cons] at this
                    omega

theorem parseElements_congr (pv pv1 : GoString → Option (Json × GoString)) (L : Nat)
    (hagree : ∀ x, x.length ≤ L → pv x = pv1 x) (hpv : Shrinks pv) :
    ∀ (n n1 : Nat) (cs : GoString), cs.length ≤ L → cs.length ≤ n → cs.length ≤ n1 →
      parseElements pv n cs = parseElements pv1 n1 cs := by
  intro n
  induction n with
  | zero =>
    intro n1 cs _ hn _
    have : cs = [] := List.length_eq_zero.1 (by omega)
    subst this
    cases n1 with
    | zero => rfl
    | succ n1 =>
      have hnone : pv1 [] = none := by
        rw [← hagree [] (by simp)]
        cases hp : pv [] with
        | none => rfl
        | some p => exact absurd (hpv _ _ _ hp) (by simp)
      simp only [parseElements, hnone]
  | succ n ih =>
    intro n1 cs hL hn hn1
    cases n1 with
    | zero =>
      have : cs = [] := List.length_eq_zero.1 (by omega)
      subst this
      have hnone : pv [] = none := by
        cases hp : pv [] with
        | none => rfl
        | some p => exact absurd (hpv _ _ _ hp) (by simp)
      simp only [parseElements, hnone]
    | succ n1 =>
      rw [parseElements, parseElements, ← hagree cs hL]
      cases hp : pv cs with
      | none => rfl
      | some p =>
        obtain ⟨v, r⟩ := p
        have h0 := hpv _ _ _ hp
        simp only
        cases hs : skipSpace r with
        | nil => rfl
        | cons c r1 =>
          have h1 := skipSpace_eq_cons_length _ _ _ hs
          simp only
          rw [ih n1 r1 (by omega) (by omega) (by omega)]

theorem parseMembers_congr (pv pv1 : GoString → Option (Json × GoString)) (L : Nat)
    (hagree : ∀ x, x.length ≤ L → pv x = pv1 x) (hpv : Shrinks pv) :
    ∀ (n n1 : Nat) (cs : GoString), cs.length ≤ L → cs.length ≤ n → cs.length ≤ n1 →
      parseMembers pv n cs = parseMembers pv1 n1 cs := by
  intro n
  induction n with
  | zero =>
    intro n1 cs _ hn _
    have : cs = [] := List.length_eq_zero.1 (by omega)
    subst this
    cases n1 <;> rfl
  | succ n ih =>
    intro n1 cs hL hn hn1
    cases n1 with
    | zero =>
      have : cs = [] := List.length_eq_zero.1 (by omega)
      subst this
      rfl
    | succ n1 =>
      rw [parseMembers, parseMembers]
      cases hs0 : skipSpace cs with
      | nil => rfl
      | cons q r0 =>
        have h0 := skipSpace_eq_cons_length _ _ _ hs0
        simp only
        split
        · cases hu : unquote r0.length r0 with
          | none => rfl
          | some p =>
            obtain ⟨k, r1⟩ := p
            have h1 := unquote_length _ _ _ _ hu
            simp only
            cases hs1 : skipSpace r1 with
            | nil => rfl
            | cons c r2 =>
              have h2 := skipSpace_eq_cons_length _ _ _ hs1
              simp only
              split
              · rw [← hagree r2 (by omega)]
                cases hp : pv r2 with
                | none => rfl
                | some p =>
                  obtain ⟨v, r3⟩ := p
                  have h3 := hpv _ _ _ hp
                  simp only
                  cases hs3 : skipSpace r3 with
                  | nil => rfl
                  | cons d r4 =>
                    have h4 := skipSpace_eq_cons_length _ _ _ hs3
                    simp only
                    rw [ih n1 r4 (by omega) (by omega) (by omega)]
              · rfl
        · rfl

/-- The bound given to `parseValue` is enough once it exceeds the length of the
input: a larger bound changes nothing, so no input is rejected for want of it. -/
theorem parseValue_fuel : ∀ (fuel fuel1 depth : Nat) (cs : GoString),
    cs.length < fuel → cs.length < fuel1 → parseValue fuel depth cs = parseValue fuel1 depth cs := by
  intro fuel
  induction fuel with
  | zero => intro fuel1 depth cs h; omega
  | succ fuel ih =>
    intro fuel1 depth cs hf hf1
    cases fuel1 with
    | zero => omega
    | succ fuel1 =>
      rw [parseValue, parseValue]
      cases hs : skipSpace cs with
      | nil => rfl
      | cons c r0 =>
        have h0 := skipSpace_eq_cons_length _ _ _ hs
        simp only
        cases hs1 : skipSpace r0 with
        | nil => rfl
        | cons c1 r1 =>
          have h1 := skipSpace_eq_cons_length _ _ _ hs1
          simp only
          have hm := parseMembers_congr (parseValue fuel (depth + 1))
            (parseValue fuel1 (depth + 1)) (c1 :: r1).length
            (fun x hx => ih fuel1 (depth + 1) x
              (by simp only [List.length_cons] at hx; omega)
              (by simp only [List.length_cons] at hx; omega))
            (parseValue_length fuel (depth + 1)) fuel fuel1 (c1 :: r1) (Nat.le_refl _)
            (by simp only [List.length_cons]; omega) (by simp only [List.length_cons]; omega)
          have he := parseElements_congr (parseValue fuel (depth + 1))
            (parseValue fuel1 (depth + 1)) (c1 :: r1).length
            (fun x hx => ih fuel1 (depth + 1) x
              (by simp only [List.length_cons] at hx; omega)
              (by simp only [List.length_cons] at hx; omega))
            (parseValue_length fuel (depth + 1)) fuel fuel1 (c1 :: r1) (Nat.le_refl _)
            (by simp only [List.length_cons]; omega) (by simp only [List.length_cons]; omega)
          rw [hm, he]

/-! ## Reading back an escaped string -/

theorem hexVal_hexDigit : ∀ n, n < 16 → hexVal (hexDigit n) = some n := by decide

theorem byte_eq_of_val (c : Byte) (k : Nat) (h : c.val = k) : c = byte k := by
  rw [← h, byte_of_val]

theorem hex4_low (c : Byte) (tl : GoString) (h : c.val < 128) :
    hex4 (ch '0' :: ch '0' :: hexDigit (c.val / 16) :: hexDigit (c.val % 16) :: tl)
      = some (c.val, tl) := by
  have h1 := hexVal_hexDigit (c.val / 16) (by omega)
  have h2 := hexVal_hexDigit (c.val % 16) (by omega)
  have h0 : hexVal (ch '0') = some 0 := by decide
  simp only [hex4, h0, h1, h2]
  congr 2
  omega

theorem consBytes_some (pre s rest : GoString) :
    consBytes pre (some (s, rest)) = some (pre ++ s, rest) := rfl

theorem not_special_of_high (b : Byte) (h : ¬b.val < 0x80) :
    b ≠ ch '"' ∧ b ≠ ch '\\' ∧ ¬b.val < 0x20 := by
  refine ⟨?_, ?_, by omega⟩
  · intro e; subst e; exact h (by decide)
  · intro e; subst e; exact h (by decide)

theorem unquote_escapeAscii (c : Byte) (hlt : c.val < 0x80) (n : Nat) (tl : GoString) :
    unquote (n + 1) (escapeAscii c ++ tl) = consBytes [c] (unquote n tl) := by
  unfold escapeAscii
  split
  · rename_i hs
    simp only [htmlSafe, Bool.and_eq_true, decide_eq_true_eq, Bool.not_eq_true',
      Bool.or_eq_false_iff, decide_eq_false_iff_not] at hs
    obtain ⟨⟨h20, _⟩, ⟨⟨⟨hq, _⟩, _⟩, _⟩, hb⟩ := hs
    simp only [List.singleton_append, unquote, hq, hb, if_false]
    rw [if_neg (by omega), if_pos hlt]
    rfl
  · split
    · rename_i h
      rcases h with h | h <;> subst h <;> rfl
    · rename_i hbq
      have hb : c ≠ ch '\\' := fun h => hbq (Or.inl h)
      have hq : c ≠ ch '"' := fun h => hbq (Or.inr h)
      split
      · rename_i h; have hc := byte_eq_of_val c _ h; subst hc; rfl
      · split
        · rename_i h; have hc := byte_eq_of_val c _ h; subst hc; rfl
        · split
          · rename_i h; subst h; rfl
          · split
            · rename_i h; subst h; rfl
            · split
              · rename_i h; subst h; rfl
              · have e1 : ch '\\' ≠ ch '"' := by decide
                have hs : isSurrogate c.val = false := by
                  simp only [isSurrogate, Bool.and_eq_false_imp, decide_eq_true_eq,
                    decide_eq_false_iff_not]
                  intro; omega
                have henc : encodeRune c.val = [c] := by
                  simp only [encodeRune, hlt, if_true, byte_of_val]
                show unquote (n + 1)
                  (ch '\\' :: ch 'u' :: ch '0' :: ch '0' :: hexDigit (c.val / 16) ::
                    hexDigit (c.val % 16) :: tl) = _
                simp only [unquote, e1, if_false, if_true]
                rw [hex4_low c tl hlt]
                simp only [hs, henc]
                simp

theorem hex4_fffd (tl : GoString) :
    hex4 (ch 'f' :: ch 'f' :: ch 'f' :: ch 'd' :: tl) = some (0xfffd, tl) := by
  have hf : hexVal (ch 'f') = some 15 := by decide
  have hd : hexVal (ch 'd') = some 13 := by decide
  simp only [hex4, hf, hd]

theorem hex4_202x (r : Nat) (h : r = 0x2028 ∨ r = 0x2029) (tl : GoString) :
    hex4 (ch '2' :: ch '0' :: ch '2' :: hexDigit (r % 16) :: tl) = some (r, tl) := by
  have h2 : hexVal (ch '2') = some 2 := by decide
  have h0 : hexVal (ch '0') = some 0 := by decide
  have hx := hexVal_hexDigit (r % 16) (by omega)
  simp only [hex4, h2, h0, hx]
  congr 2
  omega

/-- Reading back an escaped string gives the string coerced to well-formed
UTF-8, whatever bytes it holds. -/
theorem unquote_escapeBytes : ∀ (n : Nat) (v : GoString) (m : Nat) (q : GoString),
    v.length ≤ n → v.length < m →
      unquote m (escapeBytes n v ++ ch '"' :: q) = some (coerce n v, q) := by
  intro n
  induction n with
  | zero =>
    intro v m q hn hm
    have : v = [] := List.length_eq_zero.1 (by omega)
    subst this
    cases m with
    | zero => simp at hm
    | succ m => simp [escapeBytes, coerce, unquote]
  | succ n ih =>
    intro v m q hn hm
    cases v with
    | nil =>
      cases m with
      | zero => simp at hm
      | succ m => simp [escapeBytes, coerce, unquote]
    | cons b rest =>
      cases m with
      | zero => simp at hm
      | succ m =>
        simp only [List.length_cons] at hn hm
        by_cases hlt : b.val < 0x80
        · simp only [escapeBytes, coerce, hlt, if_true, List.append_assoc]
          rw [unquote_escapeAscii b hlt, ih rest m q (by omega) (by omega)]
          rfl
        · obtain ⟨hq, hb, h20⟩ := not_special_of_high b hlt
          rcases hd : decodeRune (b :: rest) with ⟨r, size⟩
          have hsz := decodeRune_size b rest r size hd
          have hdrop : (rest.drop (size - 1)).length ≤ n := by
            simp only [List.length_drop]; omega
          have hdrop1 : (rest.drop (size - 1)).length ≤ rest.length := by
            simp only [List.length_drop]; omega
          by_cases herr : r = 0xfffd ∧ size = 1
          · have e1 : ch '\\' ≠ ch '"' := by decide
            have hs : isSurrogate 0xfffd = false := by decide
            simp only [escapeBytes, coerce, hlt, if_false, hd, herr, and_self, if_true,
              List.cons_append, List.nil_append]
            simp only [unquote, e1, if_false, if_true, hex4_fffd, hs]
            rw [ih rest m q (by omega) (by omega)]
            rfl
          · have hv := decodeRune_valid b rest r size hlt hd herr
            by_cases h28 : r = 0x2028 ∨ r = 0x2029
            · have e1 : ch '\\' ≠ ch '"' := by decide
              have hs : isSurrogate r = false := by
                rcases h28 with h | h <;> subst h <;> decide
              simp only [escapeBytes, coerce, hlt, if_false, hd, herr, h28, if_true,
                List.cons_append, List.nil_append]
              simp only [unquote, e1, if_false, if_true, hex4_202x r h28, hs]
              rw [ih _ m q hdrop (by omega)]
              rfl
            · obtain ⟨_, _, _, hlen, htake, hpre⟩ := hv
              simp only [escapeBytes, coerce, hlt, if_false, hd, herr, h28,
                List.append_assoc]
              have hshape : (b :: rest).take size = b :: rest.take (size - 1) := by
                obtain ⟨k, hk⟩ : ∃ k, size = k + 1 := ⟨size - 1, by omega⟩
                subst hk
                rfl
              have hdec := hpre (escapeBytes n (rest.drop (size - 1)) ++ ch '"' :: q)
              rw [hshape] at hdec ⊢
              have htl : (rest.take (size - 1)).length = size - 1 := by
                simp only [List.length_take]; omega
              simp only [List.cons_append] at hdec ⊢
              simp only [unquote, hq, hb, h20, hlt, if_false, hdec]
              rw [List.drop_left' htl, ih _ m q hdrop (by omega)]
              rfl

/-! ## Well-formed UTF-8 -/

theorem encodeRune_ascii (b : Byte) (h : b.val < 0x80) : encodeRune b.val = [b] := by
  simp only [encodeRune, h, if_true, byte_of_val]

/-- The encoding of a rune beyond ASCII has a first byte beyond ASCII and at
least one more byte. -/
theorem encodeRune_high (r : Nat) (h : ¬r < 0x80) :
    ∃ b tl, encodeRune r = b :: tl ∧ ¬b.val < 0x80 ∧ 1 ≤ tl.length := by
  unfold encodeRune
  rw [if_neg h]
  split
  · exact ⟨_, _, rfl, by rw [byte_val]; omega, by simp⟩
  · split
    · exact ⟨_, _, rfl, by decide, by simp⟩
    · split
      · exact ⟨_, _, rfl, by rw [byte_val]; omega, by simp⟩
      · exact ⟨_, _, rfl, by rw [byte_val]; omega, by simp⟩

theorem encodeRune_length_pos (r : Nat) : 1 ≤ (encodeRune r).length := by
  unfold encodeRune
  repeat' split
  all_goals simp

/-- One rune of a well-formed string goes through `coerce` unchanged. -/
theorem coerce_encodeRune (r : Nat) (h : isScalar r) (n : Nat) (s : GoString) :
    coerce (n + 1) (encodeRune r ++ s) = encodeRune r ++ coerce n s := by
  by_cases hlt : r < 0x80
  · have hb : (byte r).val < 0x80 := by rw [byte_val]; omega
    have he : encodeRune r = [byte r] := by simp only [encodeRune, hlt, if_true]
    rw [he]
    simp only [List.singleton_append, coerce, hb, if_true]
    rfl
  · obtain ⟨b, tl, he, hb, htl⟩ := encodeRune_high r hlt
    have hd := decodeRune_encodeRune r h s
    rw [he] at hd ⊢
    simp only [List.cons_append, List.length_cons] at hd ⊢
    have hne : ¬(r = 0xfffd ∧ tl.length + 1 = 1) := by omega
    simp only [coerce, hb, if_false, hd, hne, Nat.add_sub_cancel]
    rw [he, List.drop_left]
    rfl

theorem coerce_of_wellFormed (s : GoString) (h : WellFormed s) :
    ∀ n, s.length ≤ n → coerce n s = s := by
  induction h with
  | nil => intro n _; cases n <;> rfl
  | cons r s hr _ ih =>
    intro n hn
    have := encodeRune_length_pos r
    simp only [List.length_append] at hn
    cases n with
    | zero => omega
    | succ n =>
      rw [coerce_encodeRune r hr, ih n (by omega)]

/-- A well-formed string is left as it is by the coercion. -/
theorem coerceUTF8_of_wellFormed (s : GoString) (h : WellFormed s) : coerceUTF8 s = s :=
  coerce_of_wellFormed s h _ (Nat.le_refl _)

theorem wellFormed_append (a b : GoString) (ha : WellFormed a) (hb : WellFormed b) :
    WellFormed (a ++ b) := by
  induction ha with
  | nil => exact hb
  | cons r s hr _ ih =>
    rw [List.append_assoc]
    exact WellFormed.cons r _ hr ih

theorem wellFormed_encodeRune (r : Nat) (h : isScalar r) : WellFormed (encodeRune r) := by
  have := WellFormed.cons r [] h WellFormed.nil
  simpa using this

theorem wellFormed_ascii (b : Byte) (h : b.val < 0x80) : WellFormed [b] := by
  rw [← encodeRune_ascii b h]
  exact wellFormed_encodeRune _ (by unfold isScalar; omega)

theorem isScalar_char (c : Char) : isScalar c.toNat := by
  have h := c.valid
  unfold isScalar
  simp only [UInt32.isValidChar, Nat.isValidChar] at h
  have : c.toNat = c.val.toNat := rfl
  omega

/-- The Go string of a text is well-formed UTF-8. -/
theorem wellFormed_utf8 (t : String) : WellFormed (utf8 t) := by
  unfold utf8
  induction t.data with
  | nil => exact WellFormed.nil
  | cons c cs ih =>
    simp only [List.flatMap_cons]
    exact WellFormed.cons _ _ (isScalar_char c) ih

/-! ## What the reader yields is well-formed -/

/-- A quoted string at the head of the input is read back coerced to well-formed
UTF-8. -/
theorem unquote_appendString (s rest : GoString) :
    unquote (escapeBytes s.length s ++ ch '"' :: rest).length
        (escapeBytes s.length s ++ ch '"' :: rest)
      = some (coerceUTF8 s, rest) := by
  rw [unquote_fuel _ ((escapeBytes s.length s ++ ch '"' :: rest).length + s.length + 1) _
    (Nat.le_refl _) (by omega)]
  exact unquote_escapeBytes s.length s _ rest (Nat.le_refl _) (by omega)

theorem hexVal_lt (c : Byte) (x : Nat) (h : hexVal c = some x) : x < 16 := by
  unfold hexVal at h
  split at h
  · cases h; omega
  · split at h
    · cases h; omega
    · split at h
      · cases h; omega
      · cases h

theorem hex4_lt (cs : GoString) (r : Nat) (rest : GoString) (h : hex4 cs = some (r, rest)) :
    r < 65536 := by
  unfold hex4 at h
  split at h
  · split at h
    · rename_i x y z w hx hy hz hw
      have := hexVal_lt _ _ hx
      have := hexVal_lt _ _ hy
      have := hexVal_lt _ _ hz
      have := hexVal_lt _ _ hw
      simp only [Option.some.injEq, Prod.mk.injEq] at h
      omega
    · cases h
  · cases h

theorem simpleEscape_ascii (e b : Byte) (h : simpleEscape e = some b) : b.val < 0x80 := by
  unfold simpleEscape at h
  repeat' split at h
  all_goals (cases h <;> decide)

theorem consBytes_inv (pre : GoString) (o : Option (GoString × GoString)) (s rest : GoString)
    (h : consBytes pre o = some (s, rest)) : ∃ s1, o = some (s1, rest) ∧ s = pre ++ s1 := by
  cases o with
  | none => cases h
  | some p =>
    obtain ⟨s1, r1⟩ := p
    simp only [consBytes, Option.some.injEq, Prod.mk.injEq] at h
    exact ⟨s1, by rw [h.2], h.1.symm⟩

theorem isScalar_decodeSurrogates (r1 r2 : Nat) : isScalar (decodeSurrogates r1 r2) := by
  unfold decodeSurrogates isScalar
  split <;> omega

/-- Whatever `unquote` reads is well-formed UTF-8. -/
theorem unquote_wellFormed : ∀ (n : Nat) (cs s rest : GoString),
    unquote n cs = some (s, rest) → WellFormed s := by
  intro n
  induction n with
  | zero => intro cs s rest h; cases h
  | succ n ih =>
    intro cs s rest h
    cases cs with
    | nil => cases h
    | cons c cs =>
      unfold unquote at h
      split at h
      · simp only [Option.some.injEq, Prod.mk.injEq] at h
        rw [← h.1]; exact WellFormed.nil
      · split at h
        · split at h
          · cases h
          · rename_i e cs1
            split at h
            · split at h
              · cases h
              · rename_i r cs2 hh
                have h4 := hex4_lt _ _ _ hh
                split at h
                · split at h
                  · rename_i r2 cs3 hg
                    split at h
                    · obtain ⟨s1, h1, hs⟩ := consBytes_inv _ _ _ _ h
                      rw [hs]
                      exact WellFormed.cons _ _ isScalar_fffd (ih _ _ _ h1)
                    · obtain ⟨s1, h1, hs⟩ := consBytes_inv _ _ _ _ h
                      rw [hs]
                      exact WellFormed.cons _ _ (isScalar_decodeSurrogates _ _) (ih _ _ _ h1)
                  · obtain ⟨s1, h1, hs⟩ := consBytes_inv _ _ _ _ h
                    rw [hs]
                    exact WellFormed.cons _ _ isScalar_fffd (ih _ _ _ h1)
                · rename_i hsur
                  obtain ⟨s1, h1, hs⟩ := consBytes_inv _ _ _ _ h
                  rw [hs]
                  refine WellFormed.cons _ _ ?_ (ih _ _ _ h1)
                  simp only [isSurrogate, Bool.and_eq_true, decide_eq_true_eq, not_and] at hsur
                  unfold isScalar
                  omega
            · split at h
              · cases h
              · rename_i b hb
                obtain ⟨s1, h1, hs⟩ := consBytes_inv _ _ _ _ h
                rw [hs]
                exact wellFormed_append _ _ (wellFormed_ascii _ (simpleEscape_ascii _ _ hb))
                  (ih _ _ _ h1)
        · split at h
          · cases h
          · split at h
            · rename_i hlt
              obtain ⟨s1, h1, hs⟩ := consBytes_inv _ _ _ _ h
              rw [hs]
              exact wellFormed_append _ _ (wellFormed_ascii _ hlt) (ih _ _ _ h1)
            · obtain ⟨s1, h1, hs⟩ := consBytes_inv _ _ _ _ h
              rw [hs]
              exact WellFormed.cons _ _ (decodeRune_scalar c cs _ _ rfl) (ih _ _ _ h1)

theorem parseElements_wf (pv : GoString → Option (Json × GoString)) (hpv : WFReader pv) :
    ∀ (n : Nat) (cs : GoString) (vs : List Json) (r : GoString),
      parseElements pv n cs = some (vs, r) → ∀ x ∈ vs, JsonWF x := by
  intro n
  induction n with
  | zero => intro cs vs r h; cases h
  | succ n ih =>
    intro cs vs r h
    unfold parseElements at h
    cases hp : pv cs with
    | none => rw [hp] at h; cases h
    | some p =>
      obtain ⟨v, r0⟩ := p
      rw [hp] at h
      have h0 := hpv _ _ _ hp
      simp only at h
      cases hs : skipSpace r0 with
      | nil => rw [hs] at h; cases h
      | cons c r1 =>
        rw [hs] at h
        simp only at h
        split at h
        · cases hr : parseElements pv n r1 with
          | none => rw [hr] at h; cases h
          | some q =>
            obtain ⟨vs1, r2⟩ := q
            rw [hr] at h
            cases h
            have hi := ih _ _ _ hr
            intro x hx
            rcases List.mem_cons.1 hx with hx | hx
            · rw [hx]; exact h0
            · exact hi x hx
        · split at h
          · cases h
            intro x hx
            rw [List.mem_singleton.1 hx]; exact h0
          · cases h

theorem parseMembers_wf (pv : GoString → Option (Json × GoString)) (hpv : WFReader pv) :
    ∀ (n : Nat) (cs : GoString) (ms : List (GoString × Json)) (r : GoString),
      parseMembers pv n cs = some (ms, r) →
        (∀ kv ∈ ms, WellFormed kv.1) ∧ (∀ kv ∈ ms, JsonWF kv.2) := by
  intro n
  induction n with
  | zero => intro cs ms r h; cases h
  | succ n ih =>
    intro cs ms r h
    unfold parseMembers at h
    cases hs0 : skipSpace cs with
    | nil => rw [hs0] at h; cases h
    | cons q r0 =>
      rw [hs0] at h
      simp only at h
      split at h
      · cases hu : unquote r0.length r0 with
        | none => rw [hu] at h; cases h
        | some p =>
          obtain ⟨k, r1⟩ := p
          rw [hu] at h
          have h1 := unquote_wellFormed _ _ _ _ hu
          simp only at h
          cases hs1 : skipSpace r1 with
          | nil => rw [hs1] at h; cases h
          | cons c r2 =>
            rw [hs1] at h
            simp only at h
            split at h
            · cases hp : pv r2 with
              | none => rw [hp] at h; cases h
              | some p =>
                obtain ⟨v, r3⟩ := p
                rw [hp] at h
                have h3 := hpv _ _ _ hp
                simp only at h
                cases hs3 : skipSpace r3 with
                | nil => rw [hs3] at h; cases h
                | cons d r4 =>
                  rw [hs3] at h
                  simp only at h
                  split at h
                  · cases hr : parseMembers pv n r4 with
                    | none => rw [hr] at h; cases h
                    | some q =>
                      obtain ⟨ms1, r5⟩ := q
                      rw [hr] at h
                      cases h
                      have hi := ih _ _ _ hr
                      constructor
                      · intro kv hkv
                        rcases List.mem_cons.1 hkv with hx | hx
                        · rw [hx]; exact h1
                        · exact hi.1 kv hx
                      · intro kv hkv
                        rcases List.mem_cons.1 hkv with hx | hx
                        · rw [hx]; exact h3
                        · exact hi.2 kv hx
                  · split at h
                    · cases h
                      constructor
                      · intro kv hkv
                        rw [List.mem_singleton.1 hkv]; exact h1
                      · intro kv hkv
                        rw [List.mem_singleton.1 hkv]; exact h3
                    · cases h
            · cases h
      · cases h

/-- Every string of a value `parseValue` reads is well-formed UTF-8. -/
theorem parseValue_wf : ∀ (fuel depth : Nat), WFReader (parseValue fuel depth) := by
  intro fuel
  induction fuel with
  | zero => intro depth x j r h; cases h
  | succ fuel ih =>
    intro depth x j r h
    rw [parseValue] at h
    cases hs : skipSpace x with
    | nil => rw [hs] at h; cases h
    | cons c r0 =>
      rw [hs] at h
      simp only at h
      split at h
      · split at h
        · cases hs1 : skipSpace r0 with
          | nil => rw [hs1] at h; cases h
          | cons c1 r1 =>
            rw [hs1] at h
            simp only at h
            split at h
            · cases h
              exact JsonWF.obj [] (fun _ hk => by cases hk) (fun _ hk => by cases hk)
            · cases hm : parseMembers (parseValue fuel (depth + 1)) fuel (c1 :: r1) with
              | none => rw [hm] at h; cases h
              | some p =>
                obtain ⟨ms, r2⟩ := p
                rw [hm] at h
                cases h
                have hw := parseMembers_wf _ (ih (depth + 1)) _ _ _ _ hm
                exact JsonWF.obj _ hw.1 hw.2
        · cases h
      · split at h
        · split at h
          · cases hs1 : skipSpace r0 with
            | nil => rw [hs1] at h; cases h
            | cons c1 r1 =>
              rw [hs1] at h
              simp only at h
              split at h
              · cases h
                exact JsonWF.arr [] (fun _ hk => by cases hk)
              · cases hm : parseElements (parseValue fuel (depth + 1)) fuel (c1 :: r1) with
                | none => rw [hm] at h; cases h
                | some p =>
                  obtain ⟨vs, r2⟩ := p
                  rw [hm] at h
                  cases h
                  exact JsonWF.arr _ (parseElements_wf _ (ih (depth + 1)) _ _ _ _ hm)
          · cases h
        · split at h
          · cases hu : unquote r0.length r0 with
            | none => rw [hu] at h; cases h
            | some p =>
              obtain ⟨s1, r1⟩ := p
              rw [hu] at h
              cases h
              exact JsonWF.str _ (unquote_wellFormed _ _ _ _ hu)
          · split at h
            · cases he : expectWord [ch 'r', ch 'u', ch 'e'] r0 with
              | none => rw [he] at h; cases h
              | some r1 =>
                rw [he] at h
                cases h
                exact JsonWF.bool _
            · split at h
              · cases he : expectWord [ch 'a', ch 'l', ch 's', ch 'e'] r0 with
                | none => rw [he] at h; cases h
                | some r1 =>
                  rw [he] at h
                  cases h
                  exact JsonWF.bool _
              · split at h
                · cases he : expectWord [ch 'u', ch 'l', ch 'l'] r0 with
                  | none => rw [he] at h; cases h
                  | some r1 =>
                    rw [he] at h
                    cases h
                    exact JsonWF.null
                · cases hn : scanNumber (c :: r0) with
                  | none => rw [hn] at h; cases h
                  | some r1 =>
                    rw [hn] at h
                    cases h
                    exact JsonWF.num

theorem parseJson_wf (data : GoString) (j : Json) (h : parseJson data = some j) : JsonWF j := by
  unfold parseJson at h
  cases hp : parseValue (data.length + 1) 0 data with
  | none => rw [hp] at h; cases h
  | some p =>
    obtain ⟨j1, rest⟩ := p
    rw [hp] at h
    simp only at h
    split at h
    · cases h
      exact parseValue_wf _ _ _ _ _ hp
    · cases h

/-! ## `json.Marshal` followed by `json.Unmarshal` -/

theorem skipSpace_cons (c : Byte) (cs : GoString) (h : isSpace c = false) :
    skipSpace (c :: cs) = c :: cs := by
  simp [skipSpace, h]

theorem parseValue_string (fuel depth : Nat) (s rest : GoString) :
    parseValue (fuel + 1) depth (appendString s ++ rest)
      = some (Json.str (coerceUTF8 s), rest) := by
  have hq : isSpace (ch '"') = false := by decide
  simp only [appendString, List.cons_append, List.append_assoc, List.singleton_append, parseValue,
    skipSpace_cons _ _ hq]
  have e1 : ch '"' ≠ ch '\x7b' := by decide
  have e2 : ch '"' ≠ ch '[' := by decide
  simp only [e1, e2, if_false, if_true, unquote_appendString]
  rfl

theorem parseMembers_encodeMembers (m : GoMap) (fuel depth : Nat) (ks : List GoString) :
    ∀ (n : Nat) (rest : GoString), ks ≠ [] → ks.length ≤ n →
      parseMembers (parseValue (fuel + 1) depth) n (encodeMembers m ks ++ ch '\x7d' :: rest)
        = some (memberValues m ks, rest) := by
  have hq : isSpace (ch '"') = false := by decide
  have hc : isSpace (ch ':') = false := by decide
  have hm : isSpace (ch ',') = false := by decide
  have hb : isSpace (ch '\x7d') = false := by decide
  have e1 : ch '\x7d' ≠ ch ',' := by decide
  induction ks with
  | nil => intro n rest h; exact absurd rfl h
  | cons k ks ih =>
    intro n rest _ hn
    cases n with
    | zero => simp at hn
    | succ n =>
      cases ks with
      | nil =>
        simp only [encodeMembers, appendString, List.cons_append, List.append_assoc,
          List.singleton_append, List.nil_append, parseMembers, skipSpace_cons _ _ hq, if_true,
          unquote_appendString, skipSpace_cons _ _ hc]
        have := parseValue_string fuel depth ((mapGet k m).getD []) (ch '\x7d' :: rest)
        simp only [appendString, List.cons_append, List.append_assoc,
          List.singleton_append, List.nil_append] at this
        rw [this]
        simp only [skipSpace_cons _ _ hb, e1, if_false, if_true]
        rfl
      | cons k1 ks =>
        have hn1 : (k1 :: ks).length ≤ n := by simpa using hn
        have ih1 := ih n rest (by simp) hn1
        simp only [encodeMembers, appendString, List.cons_append, List.append_assoc,
          List.singleton_append, List.nil_append, parseMembers, skipSpace_cons _ _ hq, if_true,
          unquote_appendString, skipSpace_cons _ _ hc]
        have := parseValue_string fuel depth ((mapGet k m).getD [])
          (ch ',' :: (encodeMembers m (k1 :: ks) ++ ch '\x7d' :: rest))
        simp only [appendString, List.cons_append, List.append_assoc,
          List.singleton_append, List.nil_append] at this
        rw [this]
        simp only [skipSpace_cons _ _ hm, if_true]
        rw [ih1]
        rfl

theorem length_le_encodeMembers (m : GoMap) (ks : List GoString) :
    ks.length ≤ (encodeMembers m ks).length := by
  induction ks with
  | nil => simp
  | cons k ks ih =>
    cases ks with
    | nil => simp [encodeMembers, appendString]
    | cons k1 ks =>
      simp only [encodeMembers, appendString, List.length_cons, List.length_append,
        List.cons_append, List.append_assoc] at ih ⊢
      omega

theorem encodeMembers_head (m : GoMap) (k : GoString) (ks : List GoString) :
    ∃ tl, encodeMembers m (k :: ks) = ch '"' :: tl := by
  cases ks with
  | nil => exact ⟨_, rfl⟩
  | cons k1 ks => exact ⟨_, rfl⟩

theorem parseValue_object (fuel depth : Nat) (c1 : Byte) (r1 : GoString)
    (hd : depth < maxNestingDepth) (hs : isSpace c1 = false) (hc1 : c1 ≠ ch '\x7d') :
    parseValue (fuel + 1) depth (ch '\x7b' :: c1 :: r1)
      = match parseMembers (parseValue fuel (depth + 1)) fuel (c1 :: r1) with
        | none => none
        | some (ms, r2) => some (Json.obj ms, r2) := by
  have ho : isSpace (ch '\x7b') = false := by decide
  rw [parseValue]
  simp only [skipSpace_cons _ _ ho, skipSpace_cons _ _ hs, if_true, hd, hc1, if_false]

theorem parseValue_emptyObject (fuel depth : Nat) (r1 : GoString)
    (hd : depth < maxNestingDepth) :
    parseValue (fuel + 1) depth (ch '\x7b' :: ch '\x7d' :: r1) = some (Json.obj [], r1) := by
  have ho : isSpace (ch '\x7b') = false := by decide
  have hb : isSpace (ch '\x7d') = false := by decide
  rw [parseValue]
  simp only [skipSpace_cons _ _ ho, skipSpace_cons _ _ hb, if_true, hd]

theorem parseValue_encodeMap (m : GoMap) (fuel depth : Nat) (rest : GoString)
    (hd : depth < maxNestingDepth) (hf : (sortedKeys m).length ≤ fuel + 1) :
    parseValue (fuel + 2) depth (encodeMap (some m) ++ rest)
      = some (Json.obj (memberValues m (sortedKeys m)), rest) := by
  have hq : isSpace (ch '"') = false := by decide
  have e1 : ch '"' ≠ ch '\x7d' := by decide
  cases hks : sortedKeys m with
  | nil =>
    simp only [encodeMap, hks, encodeMembers, List.nil_append, List.cons_append]
    exact parseValue_emptyObject _ _ _ hd
  | cons k ks =>
    have hp := parseMembers_encodeMembers m fuel (depth + 1) (k :: ks) (fuel + 1) rest (by simp)
      (by rw [hks] at hf; exact hf)
    obtain ⟨tl, htl⟩ := encodeMembers_head m k ks
    simp only [encodeMap, hks, List.cons_append, List.append_assoc, List.singleton_append]
    rw [htl] at hp ⊢
    simp only [List.cons_append, List.nil_append] at hp ⊢
    rw [parseValue_object _ _ _ _ hd hq e1, hp]

/-- The document `json.Marshal` writes is read back as one object with the member
`credentials`. -/
theorem parseJson_marshalled (m : GoMap) :
    parseJson (marshalled m)
      = some (Json.obj [(utf8 "credentials", Json.obj (memberValues m (sortedKeys m)))]) := by
  have hb : isSpace (ch '\x7d') = false := by decide
  have hq : isSpace (ch '"') = false := by decide
  have hc : isSpace (ch ':') = false := by decide
  have e1 : ch '"' ≠ ch '\x7d' := by decide
  have e2 : ch '\x7d' ≠ ch ',' := by decide
  have e3 : ch ':' = ch ':' := rfl
  have hlen := length_le_encodeMembers m (sortedKeys m)
  have hdoc : marshalled m = ch '\x7b' :: ch '"' ::
      (escapeBytes (utf8 "credentials").length (utf8 "credentials") ++ ch '"' :: ch ':' ::
        (encodeMap (some m) ++ [ch '\x7d'])) := by
    have h1 : utf8 "\x7b\"credentials\":" = ch '\x7b' :: ch '"' ::
        (escapeBytes (utf8 "credentials").length (utf8 "credentials") ++ [ch '"', ch ':']) := by
      decide
    have h2 : utf8 "\x7d" = [ch '\x7d'] := by decide
    unfold marshalled
    rw [h1, h2]
    simp only [List.cons_append, List.append_assoc, List.singleton_append, List.nil_append]
  have hval : coerceUTF8 (utf8 "credentials") = utf8 "credentials" :=
    coerceUTF8_of_wellFormed _ (wellFormed_utf8 _)
  obtain ⟨f, hf1, hf2⟩ : ∃ f, (marshalled m).length = f + 18 ∧ (sortedKeys m).length ≤ f := by
    refine ⟨(encodeMembers m (sortedKeys m)).length, ?_, hlen⟩
    have h1 : (utf8 "\x7b\"credentials\":").length = 15 := by decide
    have h2 : (utf8 "\x7d").length = 1 := by decide
    simp only [marshalled, encodeMap, List.length_append, List.length_cons, h1, h2,
      List.length_nil]
    omega
  have hparse := parseValue_encodeMap m (f + 16) (0 + 1) [ch '\x7d'] (by decide) (by omega)
  unfold parseJson
  rw [hf1, hdoc, parseValue_object _ _ _ _ (by decide) hq e1]
  rw [parseMembers]
  simp only [skipSpace_cons _ _ hq, if_true, unquote_appendString, hval, skipSpace_cons _ _ hc,
    hparse, skipSpace_cons _ _ hb, e2, if_false]
  rfl

theorem mapGet_mapSet (a k v : GoString) (m : GoMap) :
    mapGet a (mapSet k v m) = if a = k then some v else mapGet a m := by
  induction m with
  | nil => simp [mapSet, mapGet]
  | cons p m ih =>
    obtain ⟨k1, v1⟩ := p
    by_cases hk : k = k1
    · subst hk
      by_cases ha : a = k <;> simp [mapSet, mapGet, ha]
    · by_cases ha : a = k
      · subst ha
        simp [mapSet, mapGet, hk, ih]
      · simp [mapSet, mapGet, hk, ha, ih]

theorem mem_mapSet (kv : GoString × GoString) (k v : GoString) (m : GoMap)
    (h : kv ∈ mapSet k v m) : kv = (k, v) ∨ kv ∈ m := by
  induction m with
  | nil => simpa [mapSet] using h
  | cons p m ih =>
    obtain ⟨k1, v1⟩ := p
    unfold mapSet at h
    split at h
    · rcases List.mem_cons.1 h with h | h
      · exact Or.inl h
      · exact Or.inr (List.mem_cons_of_mem _ h)
    · rcases List.mem_cons.1 h with h | h
      · exact Or.inr (by rw [h]; exact List.mem_cons_self _ _)
      · rcases ih h with h | h
        · exact Or.inl h
        · exact Or.inr (List.mem_cons_of_mem _ h)

theorem mem_of_mapGet (k v : GoString) (m : GoMap) (h : mapGet k m = some v) : (k, v) ∈ m := by
  induction m with
  | nil => cases h
  | cons p m ih =>
    obtain ⟨k1, v1⟩ := p
    unfold mapGet at h
    split at h
    · rename_i hk
      simp only [Option.some.injEq] at h
      rw [hk, h]
      exact List.mem_cons_self _ _
    · exact List.mem_cons_of_mem _ (ih h)

theorem mem_insertKey (a k : GoString) (ks : List GoString) :
    a ∈ insertKey k ks ↔ a = k ∨ a ∈ ks := by
  induction ks with
  | nil => simp [insertKey]
  | cons x xs ih =>
    unfold insertKey
    split
    · rename_i h; subst h; simp
    · split
      · simp
      · simp only [List.mem_cons, ih]
        tauto

theorem mem_sortedKeys (a : GoString) (m : GoMap) :
    a ∈ sortedKeys m ↔ mapGet a m ≠ none := by
  induction m with
  | nil => simp [sortedKeys, mapGet]
  | cons p m ih =>
    obtain ⟨k1, v1⟩ := p
    simp only [sortedKeys, mem_insertKey, ih, mapGet]
    by_cases h : a = k1 <;> simp [h]

theorem decodeMapMembers_memberValues (m : GoMap) (ks : List GoString) :
    ∀ (m0 : GoMap) (err : Option UnmarshalError), (∀ k ∈ ks, WellFormed k) →
      (decodeMapMembers (memberValues m ks) m0 err).2 = err ∧
      ∀ a, mapGet a (decodeMapMembers (memberValues m ks) m0 err).1
        = if a ∈ ks then some (coerceUTF8 ((mapGet a m).getD [])) else mapGet a m0 := by
  induction ks with
  | nil => intro m0 err _; simp [memberValues, decodeMapMembers]
  | cons k ks ih =>
    intro m0 err hks
    have hk : coerceUTF8 k = k := coerceUTF8_of_wellFormed k (hks k (List.mem_cons_self _ _))
    have := ih (mapSet k (coerceUTF8 ((mapGet k m).getD [])) m0) err
      (fun a ha => hks a (List.mem_cons_of_mem _ ha))
    simp only [memberValues, List.map_cons, decodeMapMembers, decodeElem, hk] at this ⊢
    refine ⟨this.1, fun a => ?_⟩
    rw [this.2 a, mapGet_mapSet]
    by_cases h1 : a ∈ ks
    · simp [h1]
    · by_cases h2 : a = k
      · subst h2; simp [h1]
      · simp [h1, h2]

/-- Reading back what `json.Marshal` wrote for a map with well-formed keys:
decoding the document of the map `m` into a cache reports no error, leaves the
cache pointer in place, and yields `m`, its values coerced to well-formed UTF-8,
laid over the entries the cache held. -/
theorem Unmarshal_marshalled (m : GoMap) (s : KeyringStore) (hm : KeysWellFormed (some m)) :
    ∃ F, Unmarshal (marshalled m) s = (some { s with AWSCredentials := some F }, none) ∧
      ∀ a, mapGet a F = ((mapGet a m).map coerceUTF8).or (mapIndex s.AWSCredentials a) := by
  have hmatch : matchesCredentials (utf8 "credentials") = true := by decide
  have hks : ∀ k ∈ sortedKeys m, WellFormed k := by
    intro k hk
    have h1 := (mem_sortedKeys k m).1 hk
    obtain ⟨v, hv⟩ := Option.ne_none_iff_exists'.1 h1
    exact hm (k, v) (mem_of_mapGet k v m hv)
  obtain ⟨herr, hget⟩ :=
    decodeMapMembers_memberValues m (sortedKeys m) (s.AWSCredentials.getD []) none hks
  refine ⟨(decodeMapMembers (memberValues m (sortedKeys m)) (s.AWSCredentials.getD []) none).1,
    ?_, fun a => ?_⟩
  · simp only [Unmarshal, parseJson_marshalled, decodeStructMembers, hmatch, if_true,
      decodeCredentials]
    rw [herr]
  · rw [hget a]
    by_cases h : a ∈ sortedKeys m
    · have h1 := (mem_sortedKeys a m).1 h
      obtain ⟨v, hv⟩ := Option.ne_none_iff_exists'.1 h1
      simp [h, hv]
    · have h1 : mapGet a m = none := by
        by_contra hc; exact h ((mem_sortedKeys a m).2 hc)
      cases hs : s.AWSCredentials <;> simp [h, h1, mapIndex, hs, mapGet]

theorem mapIndex_eq (x : Option GoMap) (a : GoString) :
    mapIndex x a = mapGet a (x.getD []) := by
  cases x <;> rfl

/-! ## Decoding into a cache -/

theorem decodeMapMembers_rel (e : GoString → Option GoString) (kvs : List (GoString × Json)) :
    ∀ (X Y : GoMap) (err : Option UnmarshalError),
      (∀ a, mapGet a X = (mapGet a Y).or (e a)) →
      (decodeMapMembers kvs X err).2 = (decodeMapMembers kvs Y err).2 ∧
      ∀ a, mapGet a (decodeMapMembers kvs X err).1
        = (mapGet a (decodeMapMembers kvs Y err).1).or (e a) := by
  induction kvs with
  | nil => intro X Y err h; exact ⟨rfl, h⟩
  | cons kv kvs ih =>
    intro X Y err h
    obtain ⟨k, v⟩ := kv
    have hstep : ∀ x : GoString, ∀ a,
        mapGet a (mapSet k x X) = (mapGet a (mapSet k x Y)).or (e a) := by
      intro x a
      rw [mapGet_mapSet, mapGet_mapSet]
      by_cases ha : a = k
      · simp [ha]
      · simp [ha, h a]
    cases hd : decodeElem v with
    | mk x oe =>
      cases oe with
      | none => simpa only [decodeMapMembers, hd] using ih _ _ err (hstep x)
      | some er => simpa only [decodeMapMembers, hd] using ih _ _ (saveError err er) (hstep x)

/-- Decoding a member that is not `null` keeps one map laid over the other. -/
theorem decodeCredentials_lay (E : Option GoMap) (v : Json) (x y : Option GoMap)
    (err : Option UnmarshalError) (hv : v.isNull = false)
    (h : ∀ a, mapIndex x a = (mapIndex y a).or (mapIndex E a)) :
    (decodeCredentials v x err).2 = (decodeCredentials v y err).2 ∧
      ∀ a, mapIndex (decodeCredentials v x err).1 a
        = (mapIndex (decodeCredentials v y err).1 a).or (mapIndex E a) := by
  cases v with
  | null => cases hv
  | obj kvs =>
    have := decodeMapMembers_rel (mapIndex E) kvs (x.getD []) (y.getD []) err
      (fun a => by rw [← mapIndex_eq, ← mapIndex_eq]; exact h a)
    simp only [decodeCredentials]
    exact ⟨this.1, fun a => by simpa only [mapIndex] using this.2 a⟩
  | str _ => exact ⟨rfl, h⟩
  | bool _ => exact ⟨rfl, h⟩
  | num => exact ⟨rfl, h⟩
  | arr _ => exact ⟨rfl, h⟩

theorem decodeCredentials_rel (E : Option GoMap) (v : Json) (x y : Option GoMap)
    (err : Option UnmarshalError) (h : Overlays E x y) :
    (decodeCredentials v x err).2 = (decodeCredentials v y err).2 ∧
      Overlays E (decodeCredentials v x err).1 (decodeCredentials v y err).1 := by
  rcases h with h | h
  · subst h; exact ⟨rfl, Or.inl rfl⟩
  · cases hv : v.isNull with
    | true =>
      cases v with
      | null => exact ⟨rfl, Or.inl rfl⟩
      | obj _ => cases hv
      | str _ => cases hv
      | bool _ => cases hv
      | num => cases hv
      | arr _ => cases hv
    | false =>
      have := decodeCredentials_lay E v x y err hv h
      exact ⟨this.1, Or.inr this.2⟩

/-- A document with no `null` under `credentials` decodes into a cache as it
decodes into the zero cache, laid over the entries of the cache. -/
theorem decodeStructMembers_noreset (E : Option GoMap) (ms : List (GoString × Json)) :
    ms.any (fun kv => matchesCredentials kv.1 && kv.2.isNull) = false →
    ∀ (x y : Option GoMap) (err : Option UnmarshalError),
      (∀ a, mapIndex x a = (mapIndex y a).or (mapIndex E a)) →
      (decodeStructMembers ms x err).2 = (decodeStructMembers ms y err).2 ∧
      ∀ a, mapIndex (decodeStructMembers ms x err).1 a
        = (mapIndex (decodeStructMembers ms y err).1 a).or (mapIndex E a) := by
  induction ms with
  | nil => intro _ x y err h; exact ⟨rfl, h⟩
  | cons kv ms ih =>
    intro hany x y err h
    obtain ⟨k, v⟩ := kv
    simp only [List.any_cons, Bool.or_eq_false_iff] at hany
    obtain ⟨hhead, htail⟩ := hany
    by_cases hk : matchesCredentials k = true
    · have hv : v.isNull = false := by
        simpa only [hk, Bool.true_and] using hhead
      have hc := decodeCredentials_lay E v x y err hv h
      simp only [decodeStructMembers, hk, if_true]
      have := ih htail (decodeCredentials v x err).1 (decodeCredentials v y err).1
        (decodeCredentials v x err).2 hc.2
      rw [hc.1] at this
      rw [hc.1]
      exact this
    · simp only [decodeStructMembers, hk]
      exact ih htail x y err h

/-- A document with a `null` under `credentials` decodes into a cache as it
decodes into the zero cache: the entries of the cache are dropped. -/
theorem decodeStructMembers_reset (E : Option GoMap) (ms : List (GoString × Json)) :
    ms.any (fun kv => matchesCredentials kv.1 && kv.2.isNull) = true →
    ∀ (x y : Option GoMap) (err : Option UnmarshalError), Overlays E x y →
      decodeStructMembers ms x err = decodeStructMembers ms y err := by
  induction ms with
  | nil => intro h; cases h
  | cons kv ms ih =>
    intro hany x y err h
    obtain ⟨k, v⟩ := kv
    by_cases hk : matchesCredentials k = true
    · cases hv : v.isNull with
      | true =>
        cases v with
        | null => simp only [decodeStructMembers, hk, if_true, decodeCredentials]
        | obj _ => cases hv
        | str _ => cases hv
        | bool _ => cases hv
        | num => cases hv
        | arr _ => cases hv
      | false =>
        have htail : ms.any (fun kv => matchesCredentials kv.1 && kv.2.isNull) = true := by
          simpa only [List.any_cons, hk, hv, Bool.and_false, Bool.false_or] using hany
        have hc := decodeCredentials_rel E v x y err h
        simp only [decodeStructMembers, hk, if_true]
        have := ih htail (decodeCredentials v x err).1 (decodeCredentials v y err).1
          (decodeCredentials v x err).2 hc.2
        rw [this, hc.1]
    · have hk1 : matchesCredentials k = false := by simpa using hk
      have htail : ms.any (fun kv => matchesCredentials kv.1 && kv.2.isNull) = true := by
        simpa only [List.any_cons, hk1, Bool.false_and, Bool.false_or] using hany
      simp only [decodeStructMembers, hk]
      exact ih htail x y err h

/-- A document with no object and no `null` under `credentials` leaves the map of
the cache as it was. -/
theorem decodeStructMembers_untouched (ms : List (GoString × Json)) :
    ms.any (fun kv => matchesCredentials kv.1 && (kv.2.isNull || kv.2.isObject)) = false →
    ∀ (x : Option GoMap) (err : Option UnmarshalError), (decodeStructMembers ms x err).1 = x := by
  induction ms with
  | nil => intro _ x err; rfl
  | cons kv ms ih =>
    intro hany x err
    obtain ⟨k, v⟩ := kv
    simp only [List.any_cons, Bool.or_eq_false_iff] at hany
    obtain ⟨hhead, htail⟩ := hany
    by_cases hk : matchesCredentials k = true
    · have hv : (v.isNull || v.isObject) = false := by
        simpa only [hk, Bool.true_and] using hhead
      simp only [decodeStructMembers, hk, if_true]
      cases v with
      | null => cases hv
      | obj _ => cases hv
      | str _ => exact ih htail _ _
      | bool _ => exact ih htail _ _
      | num => exact ih htail _ _
      | arr _ => exact ih htail _ _
    · simp only [decodeStructMembers, hk]
      exact ih htail x err

/-- A blob that is not an object with an object or a `null` under `credentials`
leaves the cache object as it was. -/
theorem Unmarshal_untouched (blob : GoString) (s : KeyringStore)
    (h : touchesCredentials blob = false) : (Unmarshal blob s).1.getD s = s := by
  unfold touchesCredentials at h
  unfold Unmarshal
  cases hp : parseJson blob with
  | none => rfl
  | some j =>
    rw [hp] at h
    cases j with
    | obj ms =>
      simp only at h ⊢
      rw [decodeStructMembers_untouched ms h]
      rfl
    | null => rfl
    | bool _ => rfl
    | num => rfl
    | str _ => rfl
    | arr _ => rfl

/-- When `json.Unmarshal` reports an error the receiver variable is not nil. -/
theorem Unmarshal_error_ptr (blob : GoString) (s : KeyringStore) (e : UnmarshalError)
    (h : (Unmarshal blob s).2 = some e) : (Unmarshal blob s).1.isNone = false := by
  unfold Unmarshal at h ⊢
  cases hp : parseJson blob with
  | none => rfl
  | some j =>
    rw [hp] at h
    cases j with
    | null => cases h
    | obj ms => rfl
    | bool _ => rfl
    | num => rfl
    | str _ => rfl
    | arr _ => rfl

theorem decodeElem_wellFormed (v : Json) (h : JsonWF v) : WellFormed (decodeElem v).1 := by
  cases h with
  | str s hs => exact hs
  | null => exact WellFormed.nil
  | bool _ => exact WellFormed.nil
  | num => exact WellFormed.nil
  | arr _ _ => exact WellFormed.nil
  | obj _ _ _ => exact WellFormed.nil

theorem decodeMapMembers_pres (P : GoString × GoString → Prop) (kvs : List (GoString × Json)) :
    ∀ (m : GoMap) (err : Option UnmarshalError), (∀ kv ∈ m, P kv) →
      (∀ kv ∈ kvs, P (kv.1, (decodeElem kv.2).1)) →
      ∀ kv ∈ (decodeMapMembers kvs m err).1, P kv := by
  induction kvs with
  | nil => intro m err hm _; exact hm
  | cons p kvs ih =>
    intro m err hm hkvs
    obtain ⟨k, v⟩ := p
    have hhead := hkvs (k, v) (List.mem_cons_self _ _)
    have htail : ∀ kv ∈ kvs, P (kv.1, (decodeElem kv.2).1) :=
      fun kv hkv => hkvs kv (List.mem_cons_of_mem _ hkv)
    have hset : ∀ kv ∈ mapSet k (decodeElem v).1 m, P kv := by
      intro kv hkv
      rcases mem_mapSet kv _ _ _ hkv with h | h
      · rw [h]; exact hhead
      · exact hm kv h
    cases hd : decodeElem v with
    | mk x oe =>
      rw [hd] at hset
      cases oe with
      | none => simpa only [decodeMapMembers, hd] using ih _ err hset htail
      | some er => simpa only [decodeMapMembers, hd] using ih _ (saveError err er) hset htail

theorem decodeCredentials_pres (P : GoString × GoString → Prop) (v : Json) (m : Option GoMap)
    (err : Option UnmarshalError) (hm : ∀ kv ∈ m.getD [], P kv)
    (hv : ∀ kvs, v = Json.obj kvs → ∀ kv ∈ kvs, P (kv.1, (decodeElem kv.2).1)) :
    ∀ kv ∈ (decodeCredentials v m err).1.getD [], P kv := by
  cases v with
  | null => intro kv hkv; cases hkv
  | obj kvs =>
    simp only [decodeCredentials, Option.getD_some]
    exact decodeMapMembers_pres P kvs _ err hm (hv kvs rfl)
  | str _ => exact hm
  | bool _ => exact hm
  | num => exact hm
  | arr _ => exact hm

theorem decodeStructMembers_pres (P : GoString × GoString → Prop)
    (ms : List (GoString × Json)) :
    ∀ (m : Option GoMap) (err : Option UnmarshalError), (∀ kv ∈ m.getD [], P kv) →
      (∀ p ∈ ms, ∀ kvs, p.2 = Json.obj kvs → ∀ kv ∈ kvs, P (kv.1, (decodeElem kv.2).1)) →
      ∀ kv ∈ (decodeStructMembers ms m err).1.getD [], P kv := by
  induction ms with
  | nil => intro m err hm _; exact hm
  | cons p ms ih =>
    intro m err hm hms
    obtain ⟨k, v⟩ := p
    have htail : ∀ p ∈ ms, ∀ kvs, p.2 = Json.obj kvs →
        ∀ kv ∈ kvs, P (kv.1, (decodeElem kv.2).1) :=
      fun p hp => hms p (List.mem_cons_of_mem _ hp)
    by_cases hk : matchesCredentials k = true
    · simp only [decodeStructMembers, hk, if_true]
      exact ih _ _ (decodeCredentials_pres P v m err hm (hms (k, v) (List.mem_cons_self _ _)))
        htail
    · simp only [decodeStructMembers, hk]
      exact ih m err hm htail

/-- The members of the objects inside a well-formed object decode to well-formed
keys and values. -/
theorem members_wellFormed (ms : List (GoString × Json)) (h : JsonWF (Json.obj ms)) :
    ∀ p ∈ ms, ∀ kvs, p.2 = Json.obj kvs →
      ∀ kv ∈ kvs, WellFormed kv.1 ∧ WellFormed (decodeElem kv.2).1 := by
  cases h with
  | obj _ _ hvals =>
    intro p hp kvs hkvs kv hkv
    have hpv := hvals p hp
    rw [hkvs] at hpv
    cases hpv with
    | obj _ hk hv => exact ⟨hk kv hkv, decodeElem_wellFormed _ (hv kv hkv)⟩

/-- `json.Unmarshal` stores well-formed keys only: a cache whose keys are
well-formed keeps that property. -/
theorem Unmarshal_keysWellFormed (blob : GoString) (s s1 : KeyringStore)
    (hs : KeysWellFormed s.AWSCredentials) (h : (Unmarshal blob s).1 = some s1) :
    KeysWellFormed s1.AWSCredentials := by
  unfold Unmarshal at h
  cases hp : parseJson blob with
  | none => rw [hp] at h; cases h; exact hs
  | some j =>
    rw [hp] at h
    cases j with
    | obj ms =>
      simp only [Option.some.injEq] at h
      rw [← h]
      have hw := members_wellFormed ms (parseJson_wf _ _ hp)
      exact decodeStructMembers_pres (fun kv => WellFormed kv.1) ms _ _ hs
        (fun p hp kvs hkvs kv hkv => (hw p hp kvs hkvs kv hkv).1)
    | null => cases h
    | bool _ => cases h; exact hs
    | num => cases h; exact hs
    | str _ => cases h; exact hs
    | arr _ => cases h; exact hs

/-- The role mapping of a persisted document holds well-formed strings only. -/
theorem documentRoles_wellFormed (blob : GoString) (M : GoMap)
    (h : documentRoles blob = some M) : ∀ kv ∈ M, WellFormed kv.1 ∧ WellFormed kv.2 := by
  unfold documentRoles Unmarshal at h
  cases hp : parseJson blob with
  | none => rw [hp] at h; cases h
  | some j =>
    rw [hp] at h
    cases j with
    | obj ms =>
      simp only at h
      have hw := members_wellFormed ms (parseJson_wf _ _ hp)
      have hpres := decodeStructMembers_pres (fun kv => WellFormed kv.1 ∧ WellFormed kv.2) ms
        zeroStore.AWSCredentials none (fun kv hkv => by cases hkv) hw
      rcases hz : decodeStructMembers ms zeroStore.AWSCredentials none with ⟨mz, ez⟩
      rw [hz] at h hpres
      cases ez with
      | some e => cases h
      | none =>
        simp only [Option.some.injEq] at h
        rw [← h]
        exact hpres
    | null => cases h
    | bool _ => cases h
    | num => cases h
    | str _ => cases h
    | arr _ => cases h

theorem Marshal_eq (s : KeyringStore) (m : GoMap) (h : s.AWSCredentials = some m) :
    Marshal s = Except.ok (marshalled m) := by
  simp only [Marshal, marshalled, h]

/-- The role mapping of the document `json.Marshal` writes for a map with
well-formed keys: the map, its values coerced to well-formed UTF-8. -/
theorem documentRoles_marshalled (m : GoMap) (hm : KeysWellFormed (some m)) :
    ∃ P, documentRoles (marshalled m) = some P ∧
      ∀ a, mapGet a P = (mapGet a m).map coerceUTF8 := by
  obtain ⟨F, hF, hget⟩ := Unmarshal_marshalled m zeroStore hm
  refine ⟨F, ?_, fun a => ?_⟩
  · unfold documentRoles
    rw [hF]
    rfl
  · rw [hget a]
    simp [zeroStore, mapIndex]

theorem Unmarshal_fields (blob : GoString) (s s1 : KeyringStore)
    (h : (Unmarshal blob s).1 = some s1) :
    s1.lockResource = s.lockResource ∧ s1.user = s.user ∧ s1.service = s.service := by
  unfold Unmarshal at h
  split at h
  · cases h; exact ⟨rfl, rfl, rfl⟩
  · cases h
  · cases h; exact ⟨rfl, rfl, rfl⟩
  all_goals (cases h; exact ⟨rfl, rfl, rfl⟩)

/-- A blob that is a persisted document with role mapping `M` decodes into any
cache without error: to `M` alone when the document resets the mapping, else to
`M` laid over the entries of the cache. -/
theorem Unmarshal_of_documentRoles (blob : GoString) (s : KeyringStore) (M : GoMap)
    (hdoc : documentRoles blob = some M) :
    ∃ F, Unmarshal blob s = (some { s with AWSCredentials := F }, none) ∧
      (resetsCredentials blob = true → ∀ a, mapIndex F a = mapGet a M) ∧
      (resetsCredentials blob = false →
        ∀ a, mapIndex F a = (mapGet a M).or (mapIndex s.AWSCredentials a)) := by
  unfold documentRoles Unmarshal at hdoc
  unfold Unmarshal resetsCredentials
  cases hp : parseJson blob with
  | none => rw [hp] at hdoc; simp at hdoc
  | some j =>
    rw [hp] at hdoc
    cases j with
    | obj ms =>
      simp only [zeroStore] at hdoc ⊢
      rcases hz : decodeStructMembers ms none none with ⟨mz, ez⟩
      rw [hz] at hdoc
      simp only at hdoc
      cases ez with
      | some e => simp at hdoc
      | none =>
        simp only [Option.some.injEq] at hdoc
        cases hr : ms.any (fun kv => matchesCredentials kv.1 && kv.2.isNull) with
        | true =>
          have hrel := decodeStructMembers_reset s.AWSCredentials ms hr s.AWSCredentials none none
            (Or.inr (fun a => by simp [mapIndex]))
          rw [hz] at hrel
          rw [hrel]
          refine ⟨mz, rfl, fun _ a => ?_, fun h => by cases h⟩
          rw [mapIndex_eq, hdoc]
        | false =>
          have hrel := decodeStructMembers_noreset s.AWSCredentials ms hr s.AWSCredentials none
            none (fun a => by simp [mapIndex])
          rw [hz] at hrel
          rcases hs : decodeStructMembers ms s.AWSCredentials none with ⟨mx, ex⟩
          rw [hs] at hrel
          simp only at hrel
          obtain ⟨he, hov⟩ := hrel
          subst he
          refine ⟨mx, rfl, fun h => (by cases h), fun _ a => ?_⟩
          rw [hov a, mapIndex_eq mz, hdoc]
    | null => simp at hdoc
    | bool _ => simp at hdoc
    | num => simp at hdoc
    | str _ => simp at hdoc
    | arr _ => simp at hdoc

/-! ## Steps of the operations -/

/-- The coercion yields well-formed UTF-8. -/
theorem coerce_wellFormed : ∀ (n : Nat) (s : GoString), WellFormed (coerce n s) := by
  intro n
  induction n with
  | zero => intro s; exact WellFormed.nil
  | succ n ih =>
    intro s
    cases s with
    | nil => exact WellFormed.nil
    | cons b rest =>
      by_cases hlt : b.val < 0x80
      · simp only [coerce, hlt, if_true]
        exact wellFormed_append [b] _ (wellFormed_ascii b hlt) (ih rest)
      · rcases hd : decodeRune (b :: rest) with ⟨r, size⟩
        simp only [coerce, hlt, if_false, hd]
        split
        · exact WellFormed.cons _ _ isScalar_fffd (ih _)
        · exact WellFormed.cons _ _ (decodeRune_scalar _ _ _ _ hd) (ih _)

/-- Coercing twice is coercing once. -/
theorem coerceUTF8_idem (s : GoString) : coerceUTF8 (coerceUTF8 s) = coerceUTF8 s :=
  coerceUTF8_of_wellFormed _ (coerce_wellFormed _ _)

/-- A call whose deferred function ran and which returned: the body returned the
same value with the receiver variable not nil where the lock was held, the
release (if any) succeeded, and one `Release` was added. -/
theorem deferred_returned {σ α : Type} (c : Collab σ) (acquired : Bool) (lock : LockHandle)
    (b : Body σ α) (a : α) (h : (deferred c acquired lock b).outcome = Outcome.returned a) :
    b.run.outcome = Outcome.returned a ∧
    (acquired = true → (c.Release lock b.run.world).1 = none) ∧
    (deferred c acquired lock b).store = b.run.store ∧
    (deferred c acquired lock b).world
      = (if acquired then (c.Release lock b.run.world).2 else b.run.world) ∧
    (deferred c acquired lock b).events
      = b.run.events ++ (if acquired then [Event.Release lock] else []) := by
  cases ho : b.run.outcome with
  | exited => simp [deferred, ho] at h
  | panicked =>
    cases acquired with
    | false => simp [deferred, ho] at h
    | true =>
      cases hn : b.receiverNil with
      | true => simp [deferred, ho, hn] at h
      | false =>
        rcases hr : c.Release lock b.run.world with ⟨e, w⟩
        cases e <;> simp [deferred, ho, hn, hr] at h
  | returned x =>
    cases acquired with
    | false =>
      have hb : x = a := by simpa [deferred, ho] using h
      subst hb
      simp [deferred, ho]
    | true =>
      cases hn : b.receiverNil with
      | true => simp [deferred, ho, hn] at h
      | false =>
        rcases hr : c.Release lock b.run.world with ⟨e, w⟩
        cases e with
        | some e => simp [deferred, ho, hn, hr] at h
        | none =>
          have hb : x = a := by simpa [deferred, ho, hn, hr] using h
          subst hb
          simp [deferred, ho, hn, hr]

/-- What the body of a successful `Save` did, step by step. -/
theorem saveBody_success {σ : Type} (c : Collab σ) (s : KeyringStore) (R C : GoString) (w1 : σ)
    (hok : (saveBody c s R C w1).run.outcome = Outcome.returned none) :
    ∃ blob gerr w2 s1 m w3,
      c.Get s.service s.user w1 = ((blob, gerr), w2) ∧
      (gerr = none ∨ gerr = some KeyringError.ErrNotFound) ∧
      (if blob ≠ [] then Unmarshal blob s else (some s, none)) = (some s1, none) ∧
      s1.AWSCredentials = some m ∧
      c.Set s1.service s1.user (marshalled (mapSet R C m)) w2 = (none, w3) ∧
      (saveBody c s R C w1).run.store = { s1 with AWSCredentials := some (mapSet R C m) } ∧
      (saveBody c s R C w1).run.world = w3 ∧
      (saveBody c s R C w1).run.events =
        [Event.Acquire s.lockResource acquireOptions, Event.KeyringGet s.service s.user,
          Event.KeyringSet s1.service s1.user (marshalled (mapSet R C m))] := by
  rcases hG : c.Get s.service s.user w1 with ⟨⟨blob, gerr⟩, w2⟩
  by_cases hg : gerr ≠ none ∧ gerr ≠ some KeyringError.ErrNotFound
  · simp only [saveBody, hG, if_pos hg] at hok
    cases hok
  · have hg1 : gerr = none ∨ gerr = some KeyringError.ErrNotFound := by
      by_contra hc
      push_neg at hc
      exact hg hc
    rcases hU : (if blob ≠ [] then Unmarshal blob s else (some s, none)) with ⟨ptr, uerr⟩
    cases uerr with
    | some e => simp only [saveBody, hG, if_neg hg, hU] at hok; cases hok
    | none =>
      cases ptr with
      | none => simp only [saveBody, hG, if_neg hg, hU] at hok; cases hok
      | some s1 =>
        cases hm : s1.AWSCredentials with
        | none => simp only [saveBody, hG, if_neg hg, hU, hm] at hok; cases hok
        | some m =>
          have hM := Marshal_eq { s1 with AWSCredentials := some (mapSet R C m) }
            (mapSet R C m) rfl
          rcases hS : c.Set s1.service s1.user (marshalled (mapSet R C m)) w2 with ⟨serr, w3⟩
          cases serr with
          | some e => simp only [saveBody, hG, if_neg hg, hU, hm, hM, hS] at hok; cases hok
          | none =>
            refine ⟨blob, gerr, w2, s1, m, w3, rfl, hg1, hU, hm, hS, ?_, ?_, ?_⟩ <;>
              simp only [saveBody, hG, if_neg hg, hU, hm, hM, hS]

/-- What a successful `Save` did, step by step. -/
theorem Save_success {σ : Type} (c : Collab σ) (s : KeyringStore) (R C : GoString) (w : σ)
    (hok : (Save c s R C w).outcome = Outcome.returned none) :
    ∃ acquired lock w1 blob gerr w2 s1 m w3,
      c.Acquire s.lockResource acquireOptions w = ((acquired, lock, none), w1) ∧
      c.Get s.service s.user w1 = ((blob, gerr), w2) ∧
      (gerr = none ∨ gerr = some KeyringError.ErrNotFound) ∧
      (if blob ≠ [] then Unmarshal blob s else (some s, none)) = (some s1, none) ∧
      s1.AWSCredentials = some m ∧
      c.Set s1.service s1.user (marshalled (mapSet R C m)) w2 = (none, w3) ∧
      (acquired = true → (c.Release lock w3).1 = none) ∧
      (Save c s R C w).store = { s1 with AWSCredentials := some (mapSet R C m) } ∧
      (Save c s R C w).world = (if acquired then (c.Release lock w3).2 else w3) ∧
      (Save c s R C w).events =
        [Event.Acquire s.lockResource acquireOptions, Event.KeyringGet s.service s.user,
          Event.KeyringSet s1.service s1.user (marshalled (mapSet R C m))]
          ++ (if acquired then [Event.Release lock] else []) := by
  rcases hA : c.Acquire s.lockResource acquireOptions w with ⟨⟨acquired, lock, err⟩, w1⟩
  cases err with
  | some e => simp only [Save, hA] at hok; cases hok
  | none =>
    have hsave : Save c s R C w = deferred c acquired lock (saveBody c s R C w1) := by
      simp only [Save, hA]
    rw [hsave] at hok ⊢
    obtain ⟨hb, hrel, hst, hwo, hev⟩ := deferred_returned c acquired lock _ _ hok
    obtain ⟨blob, gerr, w2, s1, m, w3, hG, hg, hU, hm, hS, hst1, hw1, hev1⟩ :=
      saveBody_success c s R C w1 hb
    rw [hw1] at hrel hwo
    rw [hst1] at hst
    rw [hev1] at hev
    exact ⟨acquired, lock, w1, blob, gerr, w2, s1, m, w3, rfl, hG, hg, hU, hm, hS, hrel, hst,
      hwo, hev⟩

theorem loadBody_no_release {σ : Type} (c : Collab σ) (s : KeyringStore) (acquired : Bool)
    (w1 : σ) : (loadBody c s acquired w1).run.events.filter Event.isRelease = [] := by
  unfold loadBody
  repeat' split
  all_goals rfl

theorem saveBody_no_release {σ : Type} (c : Collab σ) (s : KeyringStore) (R C : GoString)
    (w1 : σ) : (saveBody c s R C w1).run.events.filter Event.isRelease = [] := by
  unfold saveBody
  repeat' split
  all_goals rfl

theorem deferred_release_discipline {σ α : Type} (c : Collab σ) (acquired : Bool)
    (lock : LockHandle) (b : Body σ α) (a : α)
    (hbody : b.run.events.filter Event.isRelease = [])
    (h : (deferred c acquired lock b).outcome = Outcome.returned a) :
    (acquired = true →
      (deferred c acquired lock b).events.filter Event.isRelease = [Event.Release lock]) ∧
    (acquired = false → (deferred c acquired lock b).events.filter Event.isRelease = []) := by
  obtain ⟨_, _, _, _, hev⟩ := deferred_returned c acquired lock b a h
  rw [hev, List.filter_append, hbody]
  cases acquired <;> simp [Event.isRelease]

/-- The deferred function after a body that returned with the lock held and the
receiver variable in place. -/
theorem deferred_granted {σ α : Type} (c : Collab σ) (lock : LockHandle) (b : Body σ α) (a : α)
    (h : b.run.outcome = Outcome.returned a) (hn : b.receiverNil = false) :
    (deferred c true lock b).store = b.run.store ∧
    ((deferred c true lock b).events.filter Event.isStoreWrite
      = b.run.events.filter Event.isStoreWrite) ∧
    ((c.Release lock b.run.world).1 = none →
      (deferred c true lock b).outcome = Outcome.returned a) ∧
    ((c.Release lock b.run.world).1 ≠ none → (deferred c true lock b).outcome = Outcome.exited) := by
  rcases hr : c.Release lock b.run.world with ⟨e, w3⟩
  cases e <;> simp [deferred, h, hn, hr, List.filter_append, Event.isStoreWrite]

theorem documentRoles_empty : documentRoles [] = none := by decide

theorem marshalled_ne_empty (m : GoMap) : marshalled m ≠ [] := by
  intro h
  have := congrArg List.length h
  have h1 : (utf8 "\x7b\"credentials\":").length = 15 := by decide
  simp only [marshalled, List.length_append, h1, List.length_nil] at this
  omega

theorem reread_fields (blob : GoString) (s s1 : KeyringStore)
    (h : (if blob ≠ [] then Unmarshal blob s else (some s, none)) = (some s1, none)) :
    s1.user = s.user ∧ s1.service = s.service := by
  by_cases hb : blob ≠ []
  · rw [if_pos hb] at h
    have := Unmarshal_fields blob s s1 (by rw [h])
    exact ⟨this.2.1, this.2.2⟩
  · rw [if_neg hb] at h
    cases h
    exact ⟨rfl, rfl⟩

/-- The re-read of `Save` keeps the keys of the cache well-formed. -/
theorem reread_keysWellFormed (blob : GoString) (s s1 : KeyringStore)
    (hs : KeysWellFormed s.AWSCredentials)
    (h : (if blob ≠ [] then Unmarshal blob s else (some s, none)) = (some s1, none)) :
    KeysWellFormed s1.AWSCredentials := by
  by_cases hb : blob ≠ []
  · rw [if_pos hb] at h
    exact Unmarshal_keysWellFormed blob s s1 hs (by rw [h])
  · rw [if_neg hb] at h
    cases h
    exact hs

theorem keysWellFormed_mapSet (R C : GoString) (m : GoMap) (hR : WellFormed R)
    (hm : KeysWellFormed (some m)) : KeysWellFormed (some (mapSet R C m)) := by
  intro kv hkv
  rcases mem_mapSet kv R C m hkv with h | h
  · rw [h]; exact hR
  · exact hm kv h

/-- What a successful `Save` did on the store in memory, with the lock granted. -/
theorem Save_mem_success (lock : LockHandle) (s : KeyringStore) (R C : GoString) (w : Secrets)
    (hok : (Save (memCollab (granted lock)) s R C w).outcome = Outcome.returned none) :
    ∃ s1 m,
      (match w s.service s.user with
        | some blob => (if blob ≠ [] then Unmarshal blob s else (some s, none)) = (some s1, none)
        | none => s1 = s) ∧
      s1.AWSCredentials = some m ∧
      (Save (memCollab (granted lock)) s R C w).store
        = { s1 with AWSCredentials := some (mapSet R C m) } ∧
      (Save (memCollab (granted lock)) s R C w).world
        = w.put s.service s.user (marshalled (mapSet R C m)) := by
  obtain ⟨acquired, lock1, w1, blob, gerr, w2, s1, m, w3, hA, hG, _, hU, hm, hS, _, hst, hwo, _⟩ :=
    Save_success _ s R C w hok
  have hf := reread_fields blob s s1 hU
  have hA1 : ((true, lock, (none : Option String)), w) = ((acquired, lock1, none), w1) := hA
  cases hA1
  have hG1 : (match w s.service s.user with
      | some password => ((password, (none : Option KeyringError)), w)
      | none => (([], some KeyringError.ErrNotFound), w)) = ((blob, gerr), w2) := hG
  have hS1 : ((none : Option KeyringError),
      w2.put s1.service s1.user (marshalled (mapSet R C m))) = (none, w3) := hS
  cases hS1
  have hwo1 : (Save (memCollab (granted lock)) s R C w).world
      = w2.put s1.service s1.user (marshalled (mapSet R C m)) := hwo
  rw [hf.1, hf.2] at hwo1
  cases hw : w s.service s.user with
  | none =>
    rw [hw] at hG1
    cases hG1
    simp only [ne_eq, not_true_eq_false, if_false] at hU
    cases hU
    exact ⟨s, m, rfl, hm, hst, hwo1⟩
  | some p =>
    rw [hw] at hG1
    cases hG1
    exact ⟨s1, m, hU, hm, hst, hwo1⟩

theorem keysWellFormed_exampleStore : KeysWellFormed exampleStore.AWSCredentials := by
  intro kv hkv
  cases hkv

theorem keysWellFormed_exampleStoreZ : KeysWellFormed exampleStoreZ.AWSCredentials := by
  intro kv hkv
  have h : kv = (utf8 "Z", utf8 "z") := by simpa [exampleStoreZ] using hkv
  rw [h]
  exact wellFormed_utf8 _

/-! ## The operations -/

/-- The values of a persisted document are not changed by the coercion. -/
theorem documentRoles_coerced (blob : GoString) (M : GoMap) (h : documentRoles blob = some M)
    (k : GoString) : (mapGet k M).map coerceUTF8 = mapGet k M := by
  cases hM : mapGet k M with
  | none => rfl
  | some v =>
    have hv := (documentRoles_wellFormed blob M h (k, v) (mem_of_mapGet k v M hM)).2
    simp only [Option.map_some', coerceUTF8_of_wellFormed v hv]

/-- C9: `Get` returns `NotFoundError` (and no record) exactly when the role is not
a key of the entries, nil map included; it always returns, leaves the cache and
the world as they were, and calls neither the lock provider nor the store. -/
theorem Get_absent_role {σ Cred : Type} (unmarshalCred : GoString → Except UnmarshalError Cred)
    (s : KeyringStore) (roleArn : GoString) (w : σ) :
    ((Get unmarshalCred s roleArn w).outcome
        = Outcome.returned (Except.error (Error.NotFoundError roleArn))
      ↔ mapIndex s.AWSCredentials roleArn = none) ∧
    ((∃ r, (Get unmarshalCred s roleArn w).outcome
        = Outcome.returned (Except.error (Error.NotFoundError r)))
      ↔ mapIndex s.AWSCredentials roleArn = none) ∧
    (∃ r, (Get unmarshalCred s roleArn w).outcome = Outcome.returned r) ∧
    (Get unmarshalCred s roleArn w).store = s ∧
    (Get unmarshalCred s roleArn w).world = w ∧
    (∀ e ∈ (Get unmarshalCred s roleArn w).events, e.isCollaboratorCall = false) := by
  unfold Get
  cases h : mapIndex s.AWSCredentials roleArn with
  | none => simp
  | some jsonStr =>
    cases hu : unmarshalCred jsonStr with
    | error e => simp [hu, Event.isCollaboratorCall]
    | ok cred => simp [hu, Event.isCollaboratorCall]

/-- C8: when `Load` is granted the lock and the store reports `ErrNotFound`, `Load`
returns no error (it returns nil unless the release of the lock fails, which
terminates the process), the cache object is left as it was, so a freshly
constructed cache still has empty entries, and nothing is written to the store. -/
theorem Load_not_found {σ : Type} (c : Collab σ) (s : KeyringStore) (w w1 w2 : σ)
    (lock : LockHandle) (jsonStr : GoString)
    (hacq : c.Acquire s.lockResource acquireOptions w = ((true, lock, none), w1))
    (hget : c.Get s.service s.user w1 = ((jsonStr, some KeyringError.ErrNotFound), w2)) :
    (Load c s w).store = s ∧
    (∀ provider user, NewKeyringStore provider user none = Outcome.returned s →
      (Load c s w).store.AWSCredentials = some []) ∧
    (∀ e ∈ (Load c s w).events, e.isStoreWrite = false) ∧
    (∀ e, (Load c s w).outcome ≠ Outcome.returned (some e)) ∧
    ((c.Release lock w2).1 = none → (Load c s w).outcome = Outcome.returned none) ∧
    ((c.Release lock w2).1 ≠ none → (Load c s w).outcome = Outcome.exited) := by
  have hL : Load c s w = deferred c true lock
      { run :=
          { outcome := Outcome.returned none, store := s, world := w2
            events := [Event.Acquire s.lockResource acquireOptions,
              Event.KeyringGet s.service s.user] }
        receiverNil := false } := by
    simp [Load, loadBody, hacq, hget]
  rw [hL]
  rcases hr : c.Release lock w2 with ⟨e, w3⟩
  cases e with
  | none =>
    simp only [deferred, hr, if_true, Bool.false_eq_true, if_false]
    refine ⟨trivial, ?_, ?_, ?_, ?_, ?_⟩
    · intro provider user h
      simp only [NewKeyringStore, Outcome.returned.injEq] at h
      rw [← h]
    · simp [Event.isStoreWrite]
    · simp
    · simp
    · simp
  | some e =>
    simp only [deferred, hr, if_true, Bool.false_eq_true, if_false]
    refine ⟨trivial, ?_, ?_, ?_, ?_, ?_⟩
    · intro provider user h
      simp only [NewKeyringStore, Outcome.returned.injEq] at h
      rw [← h]
    · simp [Event.isStoreWrite]
    · simp
    · simp
    · simp

/-- C8, at a concrete input: a fresh cache loaded from an empty store. -/
theorem Load_not_found_witness :
    (Load (memCollab (granted exampleLock)) exampleStore emptySecrets).store = exampleStore ∧
    (Load (memCollab (granted exampleLock)) exampleStore emptySecrets).outcome
      = Outcome.returned none :=
  have h := Load_not_found (memCollab (granted exampleLock)) exampleStore emptySecrets emptySecrets
    emptySecrets exampleLock [] rfl rfl
  ⟨h.1, h.2.2.2.2.1 rfl⟩

/-- C6: on every path on which `Load` or `Save` returns to its caller, `Release`
is called exactly once, with the handle `Acquire` answered, when `Acquire`
answered `acquired = true` with no error, and never when it answered
`acquired = false`. -/
theorem lock_release_discipline {σ : Type} (c : Collab σ) (s : KeyringStore)
    (roleArn cred : GoString) (w w1 : σ) (acquired : Bool) (lock : LockHandle)
    (err : Option String)
    (hacq : c.Acquire s.lockResource acquireOptions w = ((acquired, lock, err), w1)) :
    (∀ r, (Load c s w).outcome = Outcome.returned r →
      (acquired = true → err = none →
        (Load c s w).events.filter Event.isRelease = [Event.Release lock]) ∧
      (acquired = false → (Load c s w).events.filter Event.isRelease = [])) ∧
    (∀ r, (Save c s roleArn cred w).outcome = Outcome.returned r →
      (acquired = true → err = none →
        (Save c s roleArn cred w).events.filter Event.isRelease = [Event.Release lock]) ∧
      (acquired = false → (Save c s roleArn cred w).events.filter Event.isRelease = [])) := by
  cases err with
  | some e =>
    have hL : (Load c s w).events = [Event.Acquire s.lockResource acquireOptions] := by
      simp only [Load, hacq]
    have hS : (Save c s roleArn cred w).events
        = [Event.Acquire s.lockResource acquireOptions] := by
      simp only [Save, hacq]
    rw [hL, hS]
    exact ⟨fun _ _ => ⟨fun _ h => (by cases h), fun _ => rfl⟩,
      fun _ _ => ⟨fun _ h => (by cases h), fun _ => rfl⟩⟩
  | none =>
    have hL : Load c s w = deferred c acquired lock (loadBody c s acquired w1) := by
      simp only [Load, hacq]
    have hS : Save c s roleArn cred w = deferred c acquired lock (saveBody c s roleArn cred w1) := by
      simp only [Save, hacq]
    rw [hL, hS]
    constructor
    · intro r h
      have := deferred_release_discipline c acquired lock _ r (loadBody_no_release c s acquired w1) h
      exact ⟨fun ha _ => this.1 ha, this.2⟩
    · intro r h
      have := deferred_release_discipline c acquired lock _ r
        (saveBody_no_release c s roleArn cred w1) h
      exact ⟨fun ha _ => this.1 ha, this.2⟩

/-- C6, at a concrete input: `Load` and `Save` of a fresh cache on an empty store,
with the lock granted. -/
theorem lock_release_discipline_witness :
    (Load (memCollab (granted exampleLock)) exampleStore emptySecrets).events.filter
        Event.isRelease = [Event.Release exampleLock] ∧
    (Save (memCollab (granted exampleLock)) exampleStore (utf8 "B") (utf8 "y")
        emptySecrets).events.filter Event.isRelease = [Event.Release exampleLock] :=
  have h := lock_release_discipline (memCollab (granted exampleLock)) exampleStore (utf8 "B")
    (utf8 "y") emptySecrets emptySecrets true exampleLock none rfl
  ⟨(h.1 none (by decide)).1 rfl rfl, (h.2 none (by decide)).1 rfl rfl⟩

/-- C3 (code bug), at the failing input: `Acquire` answers `acquired = false` with
no error.  `Load` returns `LockError` without touching the store; `Save` goes on,
reads the store, writes it and returns nil. -/
theorem Save_proceeds_without_lock :
    (Load (memCollab (false, exampleLock, none)) exampleStore emptySecrets).outcome
      = Outcome.returned (some (Error.LockError none)) ∧
    (Load (memCollab (false, exampleLock, none)) exampleStore emptySecrets).events
      = [Event.Acquire (utf8 "aws-cli-oidc") acquireOptions] ∧
    (Save (memCollab (false, exampleLock, none)) exampleStore (utf8 "B") (utf8 "y")
        emptySecrets).outcome
      = Outcome.returned none ∧
    (Save (memCollab (false, exampleLock, none)) exampleStore (utf8 "B") (utf8 "y")
        emptySecrets).events
      = [Event.Acquire (utf8 "aws-cli-oidc") acquireOptions,
          Event.KeyringGet (utf8 "aws-cli-oidc/p") (utf8 "alice"),
          Event.KeyringSet (utf8 "aws-cli-oidc/p") (utf8 "alice")
            (utf8 "\x7b\"credentials\":\x7b\"B\":\"y\"\x7d\x7d")] := by
  decide

/-- C7 (code bug), at the failing input: the store holds no blob, `keyring.Delete`
reports `ErrNotFound`, and `Clear` returns that error to its caller. -/
theorem Clear_surfaces_not_found :
    (Clear (memCollab (granted exampleLock)) exampleStore emptySecrets).outcome
      = Outcome.returned (some KeyringError.ErrNotFound) := by
  decide

/-- C10 (code bug), at the failing inputs: on the blob `null` the local pointer is
nil after `json.Unmarshal`, on a document whose `credentials` is `null` the map is
nil; in both cases `Save` reports no error from `json.Unmarshal`, panics at the
upsert and writes nothing.  With the map nil the deferred function releases the
lock while the panic unwinds; with the pointer nil the deferred function itself
faults at `s.locker` and the lock is not released. -/
theorem Save_panics_on_null :
    Unmarshal (utf8 "null") exampleStore = (none, none) ∧
    (Save (memCollab (granted exampleLock)) exampleStore (utf8 "B") (utf8 "y")
        (secretsWith (utf8 "null"))).outcome
      = Outcome.panicked ∧
    (Unmarshal (utf8 "\x7b\"credentials\":null\x7d") exampleStore).2 = none ∧
    (Save (memCollab (granted exampleLock)) exampleStore (utf8 "B") (utf8 "y")
      (secretsWith (utf8 "\x7b\"credentials\":null\x7d"))).outcome = Outcome.panicked ∧
    (Save (memCollab (granted exampleLock)) exampleStore (utf8 "B") (utf8 "y")
      (secretsWith (utf8 "\x7b\"credentials\":null\x7d"))).events
      = [Event.Acquire (utf8 "aws-cli-oidc") acquireOptions,
          Event.KeyringGet (utf8 "aws-cli-oidc/p") (utf8 "alice"), Event.Release exampleLock] ∧
    (Save (memCollab (granted exampleLock)) exampleStore (utf8 "B") (utf8 "y")
        (secretsWith (utf8 "null"))).events
      = [Event.Acquire (utf8 "aws-cli-oidc") acquireOptions,
          Event.KeyringGet (utf8 "aws-cli-oidc/p") (utf8 "alice")] := by
  decide

/-- C4 is false as stated.  A blob of well-formed JSON with a number under a role
key makes `Load` return `CorruptDataError` after the entries have been changed;
and the empty blob, which `json.Unmarshal` rejects, is taken by `Save` for an
absent blob: `Save` returns nil and writes. -/
theorem corrupt_blob_not_atomic :
    (Load (memCollab (granted exampleLock)) exampleStore
        (secretsWith (utf8 "\x7b\"credentials\":\x7b\"A\":\"x\",\"B\":5\x7d\x7d"))).outcome
      = Outcome.returned (some (Error.CorruptDataError (UnmarshalError.typeError "number"))) ∧
    (Load (memCollab (granted exampleLock)) exampleStore
        (secretsWith
          (utf8 "\x7b\"credentials\":\x7b\"A\":\"x\",\"B\":5\x7d\x7d"))).store.AWSCredentials
      = some [(utf8 "A", utf8 "x"), (utf8 "B", [])] ∧
    exampleStore.AWSCredentials = some [] ∧
    (Unmarshal [] exampleStore).2 = some UnmarshalError.syntaxError ∧
    (Save (memCollab (granted exampleLock)) exampleStore (utf8 "B") (utf8 "y")
        (secretsWith [])).outcome
      = Outcome.returned none ∧
    (Save (memCollab (granted exampleLock)) exampleStore (utf8 "B") (utf8 "y")
        (secretsWith [])).world (utf8 "aws-cli-oidc/p") (utf8 "alice")
      = some (utf8 "\x7b\"credentials\":\x7b\"B\":\"y\"\x7d\x7d") := by
  decide

/-- C4, amended: a blob that `json.Unmarshal` rejects makes `Load`, and `Save` when
the blob is not the empty string, return `CorruptDataError` (unless the release of
the lock fails, which terminates the process) without writing to the store; the
cache object is left as it was unless the blob is a JSON object with a
`credentials` member that is an object or `null`. -/
theorem corrupt_blob_rejected {σ : Type} (c : Collab σ) (s : KeyringStore)
    (roleArn cred : GoString) (w w1 w2 : σ) (lock : LockHandle) (blob : GoString)
    (e : UnmarshalError)
    (hacq : c.Acquire s.lockResource acquireOptions w = ((true, lock, none), w1))
    (hget : c.Get s.service s.user w1 = ((blob, none), w2))
    (hbad : (Unmarshal blob s).2 = some e) :
    (((c.Release lock w2).1 = none →
        (Load c s w).outcome = Outcome.returned (some (Error.CorruptDataError e))) ∧
      ((c.Release lock w2).1 ≠ none → (Load c s w).outcome = Outcome.exited) ∧
      (Load c s w).events.filter Event.isStoreWrite = [] ∧
      (touchesCredentials blob = false → (Load c s w).store = s)) ∧
    (blob ≠ [] →
      ((c.Release lock w2).1 = none →
        (Save c s roleArn cred w).outcome = Outcome.returned (some (Error.CorruptDataError e))) ∧
      ((c.Release lock w2).1 ≠ none → (Save c s roleArn cred w).outcome = Outcome.exited) ∧
      (Save c s roleArn cred w).events.filter Event.isStoreWrite = [] ∧
      (touchesCredentials blob = false → (Save c s roleArn cred w).store = s)) ∧
    (parseJson blob = none → touchesCredentials blob = false) := by
  have hptr := Unmarshal_error_ptr blob s e hbad
  have hkeep := Unmarshal_untouched blob s
  rcases hU : Unmarshal blob s with ⟨ptr, uerr⟩
  rw [hU] at hbad hptr hkeep
  simp only at hbad hptr hkeep
  subst hbad
  refine ⟨?_, ?_, ?_⟩
  · have hL : Load c s w = deferred c true lock
        { run :=
            { outcome := Outcome.returned (some (Error.CorruptDataError e)), store := ptr.getD s
              world := w2
              events := [Event.Acquire s.lockResource acquireOptions,
                Event.KeyringGet s.service s.user] }
          receiverNil := false } := by
      simp [Load, loadBody, hacq, hget, hU, hptr]
    rw [hL]
    obtain ⟨h1, h2, h3, h4⟩ := deferred_granted c lock
      ({ run :=
           { outcome := Outcome.returned (some (Error.CorruptDataError e)), store := ptr.getD s
             world := w2
             events := [Event.Acquire s.lockResource acquireOptions,
               Event.KeyringGet s.service s.user] }
         receiverNil := false } : Body σ (Option Error)) _ rfl rfl
    exact ⟨h3, h4, by rw [h2]; rfl, fun hp => by rw [h1]; exact hkeep hp⟩
  · intro hne
    have hS : Save c s roleArn cred w = deferred c true lock
        { run :=
            { outcome := Outcome.returned (some (Error.CorruptDataError e)), store := ptr.getD s
              world := w2
              events := [Event.Acquire s.lockResource acquireOptions,
                Event.KeyringGet s.service s.user] }
          receiverNil := false } := by
      simp [Save, saveBody, hacq, hget, hU, hne, hptr]
    rw [hS]
    obtain ⟨h1, h2, h3, h4⟩ := deferred_granted c lock
      ({ run :=
           { outcome := Outcome.returned (some (Error.CorruptDataError e)), store := ptr.getD s
             world := w2
             events := [Event.Acquire s.lockResource acquireOptions,
               Event.KeyringGet s.service s.user] }
         receiverNil := false } : Body σ (Option Error)) _ rfl rfl
    exact ⟨h3, h4, by rw [h2]; rfl, fun hp => by rw [h1]; exact hkeep hp⟩
  · intro hp
    simp only [touchesCredentials, hp]

/-- C4, amended, at a concrete input: a blob of well-formed JSON whose
`credentials` member is a string. -/
theorem corrupt_blob_rejected_witness :
    (Load (memCollab (granted exampleLock)) exampleStoreZ
        (secretsWith (utf8 "\x7b\"credentials\":\"oops\"\x7d"))).outcome
      = Outcome.returned (some (Error.CorruptDataError (UnmarshalError.typeError "string"))) ∧
    (Load (memCollab (granted exampleLock)) exampleStoreZ
        (secretsWith (utf8 "\x7b\"credentials\":\"oops\"\x7d"))).store
      = exampleStoreZ ∧
    (Save (memCollab (granted exampleLock)) exampleStoreZ (utf8 "B") (utf8 "y")
        (secretsWith (utf8 "\x7b\"credentials\":\"oops\"\x7d"))).outcome
      = Outcome.returned (some (Error.CorruptDataError (UnmarshalError.typeError "string"))) ∧
    (Save (memCollab (granted exampleLock)) exampleStoreZ (utf8 "B") (utf8 "y")
        (secretsWith (utf8 "\x7b\"credentials\":\"oops\"\x7d"))).store
      = exampleStoreZ ∧
    (Save (memCollab (granted exampleLock)) exampleStoreZ (utf8 "B") (utf8 "y")
        (secretsWith (utf8 "\x7b\"credentials\":\"oops\"\x7d"))).events.filter
          Event.isStoreWrite = [] :=
  have h := corrupt_blob_rejected (memCollab (granted exampleLock)) exampleStoreZ (utf8 "B")
    (utf8 "y") (secretsWith (utf8 "\x7b\"credentials\":\"oops\"\x7d"))
    (secretsWith (utf8 "\x7b\"credentials\":\"oops\"\x7d"))
    (secretsWith (utf8 "\x7b\"credentials\":\"oops\"\x7d"))
    exampleLock (utf8 "\x7b\"credentials\":\"oops\"\x7d") (UnmarshalError.typeError "string")
    rfl rfl (by decide)
  ⟨h.1.1 rfl, h.1.2.2.2 (by decide), (h.2.1 (by decide)).1 rfl,
    (h.2.1 (by decide)).2.2.2 (by decide), (h.2.1 (by decide)).2.2.1⟩

/-- C1 is false as stated: the store holds a document with roles `A ↦ x`, the
cache holds `Z ↦ z` in memory only, and after `Save("B", "y")` the persisted
document holds `Z` as well.  And a string that is not well-formed UTF-8 is not
persisted as it is: the byte `0xff` is written as U+FFFD, as a credential and as
a role, so that the role `0xff` is not a key of the document; and a key `0xff`
held in memory takes the place of the role U+FFFD. -/
theorem Save_keeps_memory_only_entries :
    documentRoles (utf8 "\x7b\"credentials\":\x7b\"A\":\"x\"\x7d\x7d")
      = some [(utf8 "A", utf8 "x")] ∧
    exampleStoreZ.AWSCredentials = some [(utf8 "Z", utf8 "z")] ∧
    (Save (memCollab (granted exampleLock)) exampleStoreZ (utf8 "B") (utf8 "y")
        (secretsWith (utf8 "\x7b\"credentials\":\x7b\"A\":\"x\"\x7d\x7d"))).outcome
      = Outcome.returned none ∧
    (Save (memCollab (granted exampleLock)) exampleStoreZ (utf8 "B") (utf8 "y")
        (secretsWith (utf8 "\x7b\"credentials\":\x7b\"A\":\"x\"\x7d\x7d"))).world
          (utf8 "aws-cli-oidc/p") (utf8 "alice")
      = some (utf8 "\x7b\"credentials\":\x7b\"A\":\"x\",\"B\":\"y\",\"Z\":\"z\"\x7d\x7d") ∧
    ((documentRoles
        (utf8 "\x7b\"credentials\":\x7b\"A\":\"x\",\"B\":\"y\",\"Z\":\"z\"\x7d\x7d")).bind
      (mapGet (utf8 "Z"))) = some (utf8 "z") ∧
    (Save (memCollab (granted exampleLock)) exampleStore (utf8 "B") [byte 0xff]
        (secretsWith (utf8 "\x7b\"credentials\":\x7b\"A\":\"x\"\x7d\x7d"))).outcome
      = Outcome.returned none ∧
    (((Save (memCollab (granted exampleLock)) exampleStore (utf8 "B") [byte 0xff]
        (secretsWith (utf8 "\x7b\"credentials\":\x7b\"A\":\"x\"\x7d\x7d"))).world
          (utf8 "aws-cli-oidc/p") (utf8 "alice")).bind documentRoles).bind (mapGet (utf8 "B"))
      = some [byte 0xef, byte 0xbf, byte 0xbd] ∧
    (Save (memCollab (granted exampleLock)) exampleStore [byte 0xff] (utf8 "y")
        (secretsWith (utf8 "\x7b\"credentials\":\x7b\"A\":\"x\"\x7d\x7d"))).outcome
      = Outcome.returned none ∧
    ((Save (memCollab (granted exampleLock)) exampleStore [byte 0xff] (utf8 "y")
        (secretsWith (utf8 "\x7b\"credentials\":\x7b\"A\":\"x\"\x7d\x7d"))).world
          (utf8 "aws-cli-oidc/p") (utf8 "alice")).bind documentRoles
      = some [(utf8 "A", utf8 "x"), ([byte 0xef, byte 0xbf, byte 0xbd], utf8 "y")] ∧
    exampleStoreRaw.AWSCredentials = some [([byte 0xff], utf8 "stale")] ∧
    (Save (memCollab (granted exampleLock)) exampleStoreRaw (utf8 "\ufffd") (utf8 "y")
        (secretsWith (utf8 "\x7b\"credentials\":\x7b\"A\":\"x\"\x7d\x7d"))).outcome
      = Outcome.returned none ∧
    (((Save (memCollab (granted exampleLock)) exampleStoreRaw (utf8 "\ufffd") (utf8 "y")
        (secretsWith (utf8 "\x7b\"credentials\":\x7b\"A\":\"x\"\x7d\x7d"))).world
          (utf8 "aws-cli-oidc/p") (utf8 "alice")).bind documentRoles).bind
            (mapGet (utf8 "\ufffd"))
      = some (utf8 "stale") := by
  refine ⟨?_, ?_, ?_, ?_, ?_, ?_, ?_, ?_, ?_, ?_, ?_, ?_⟩ <;> decide

/-- C1, amended: when `Save(R, C)` runs with the lock granted against a store whose
blob is a well-formed document with role mapping `M`, the role `R` and the keys
held in memory being well-formed UTF-8, and succeeds, it makes one write, and
the blob written decodes to: `R` with `C` coerced to well-formed UTF-8 (`C`
itself when it is well-formed); every other key of `M` with its value in `M`;
and, unless the document resets the mapping with a `null` under `credentials`,
every other key held in memory and not in `M`, with its value in memory,
coerced.  So the blob decodes to exactly `M` with `R` set to `C` when `C` is
well-formed and the cache held no key outside `M`. -/
theorem Save_merges_document {σ : Type} (c : Collab σ) (s : KeyringStore) (R C : GoString)
    (w w1 w2 : σ) (lock : LockHandle) (blob : GoString) (M : GoMap)
    (hacq : c.Acquire s.lockResource acquireOptions w = ((true, lock, none), w1))
    (hget : c.Get s.service s.user w1 = ((blob, none), w2))
    (hdoc : documentRoles blob = some M)
    (hR : WellFormed R) (hkeys : KeysWellFormed s.AWSCredentials)
    (hok : (Save c s R C w).outcome = Outcome.returned none) :
    ∃ newBlob P,
      (Save c s R C w).events =
        [Event.Acquire s.lockResource acquireOptions, Event.KeyringGet s.service s.user,
          Event.KeyringSet s.service s.user newBlob, Event.Release lock] ∧
      documentRoles newBlob = some P ∧
      (resetsCredentials blob = false →
        ∀ k, mapGet k P = if k = R then some (coerceUTF8 C)
          else (mapGet k M).or ((mapIndex s.AWSCredentials k).map coerceUTF8)) ∧
      (resetsCredentials blob = true →
        ∀ k, mapGet k P = if k = R then some (coerceUTF8 C) else mapGet k M) ∧
      (WellFormed C → mapGet R P = some C) ∧
      (WellFormed C → (∀ k, mapIndex s.AWSCredentials k ≠ none → mapGet k M ≠ none) →
        ∀ k, mapGet k P = if k = R then some C else mapGet k M) := by
  obtain ⟨acquired, lock1, w1a, blob1, gerr, w2a, s1, m, w3, hA, hG, _, hU, hm, _, _, _, _, hev⟩ :=
    Save_success c s R C w hok
  rw [hacq] at hA
  cases hA
  rw [hget] at hG
  cases hG
  have hne : blob ≠ [] := by
    intro h
    rw [h, documentRoles_empty] at hdoc
    cases hdoc
  have hkeys1 := reread_keysWellFormed blob s s1 hkeys hU
  rw [if_pos hne] at hU
  obtain ⟨F, hF, hreset, hlay⟩ := Unmarshal_of_documentRoles blob s M hdoc
  rw [hF] at hU
  simp only [Prod.mk.injEq, Option.some.injEq, and_true] at hU
  subst hU
  simp only at hm hev hkeys1
  subst hm
  obtain ⟨P, hP, hPget⟩ := documentRoles_marshalled (mapSet R C m)
    (keysWellFormed_mapSet R C m hR hkeys1)
  have hkey : ∀ k, mapGet k P = if k = R then some (coerceUTF8 C)
      else (mapIndex (some m) k).map coerceUTF8 := by
    intro k
    rw [hPget, mapGet_mapSet]
    by_cases hk : k = R
    · simp only [hk, if_true, Option.map_some']
    · simp only [hk, if_false]
      rfl
  have hno : resetsCredentials blob = false →
      ∀ k, mapGet k P = if k = R then some (coerceUTF8 C)
        else (mapGet k M).or ((mapIndex s.AWSCredentials k).map coerceUTF8) := by
    intro hr k
    rw [hkey, hlay hr k]
    have hco := documentRoles_coerced blob M hdoc k
    cases hM : mapGet k M with
    | none => simp
    | some v =>
      rw [hM] at hco
      simp only [Option.map_some', Option.some.injEq] at hco
      simp [hco]
  have hyes : resetsCredentials blob = true →
      ∀ k, mapGet k P = if k = R then some (coerceUTF8 C) else mapGet k M := by
    intro hr k
    rw [hkey, hreset hr k, documentRoles_coerced blob M hdoc k]
  refine ⟨marshalled (mapSet R C m), P, ?_, hP, hno, hyes, ?_, ?_⟩
  · rw [hev]; rfl
  · intro hC
    rw [hkey R, if_pos rfl, coerceUTF8_of_wellFormed C hC]
  · intro hC hsub k
    rw [← coerceUTF8_of_wellFormed C hC]
    cases hr : resetsCredentials blob with
    | true => exact hyes hr k
    | false =>
      rw [hno hr k]
      by_cases hk : k = R
      · simp only [hk, if_true]
      · simp only [hk, if_false]
        cases hM : mapGet k M with
        | some v => rfl
        | none =>
          have : mapIndex s.AWSCredentials k = none := by
            by_contra hc
            exact hsub k hc hM
          simp [this]

/-- C1, amended, at a concrete input: a cache holding `Z ↦ z` in memory saves
`B ↦ y` over a stored document with roles `A ↦ x`; the document written holds
`A`, `B` and the memory-only `Z`. -/
theorem Save_merges_document_witness :
    ∃ newBlob P,
      (Save (memCollab (granted exampleLock)) exampleStoreZ (utf8 "B") (utf8 "y")
          (secretsWith (utf8 "\x7b\"credentials\":\x7b\"A\":\"x\"\x7d\x7d"))).events =
        [Event.Acquire (utf8 "aws-cli-oidc") acquireOptions,
          Event.KeyringGet (utf8 "aws-cli-oidc/p") (utf8 "alice"),
          Event.KeyringSet (utf8 "aws-cli-oidc/p") (utf8 "alice") newBlob,
          Event.Release exampleLock] ∧
      documentRoles newBlob = some P ∧
      mapGet (utf8 "A") P = some (utf8 "x") ∧
      mapGet (utf8 "B") P = some (utf8 "y") ∧
      mapGet (utf8 "Z") P = some (utf8 "z") ∧
      mapGet (utf8 "Y") P = none :=
  have h := Save_merges_document (memCollab (granted exampleLock)) exampleStoreZ (utf8 "B")
    (utf8 "y")
    (secretsWith (utf8 "\x7b\"credentials\":\x7b\"A\":\"x\"\x7d\x7d"))
    (secretsWith (utf8 "\x7b\"credentials\":\x7b\"A\":\"x\"\x7d\x7d"))
    (secretsWith (utf8 "\x7b\"credentials\":\x7b\"A\":\"x\"\x7d\x7d"))
    exampleLock (utf8 "\x7b\"credentials\":\x7b\"A\":\"x\"\x7d\x7d") [(utf8 "A", utf8 "x")]
    rfl rfl (by decide) (wellFormed_utf8 _) keysWellFormed_exampleStoreZ (by decide)
  match h with
  | ⟨newBlob, P, hev, hP, hno, _, _, _⟩ =>
    ⟨newBlob, P, hev, hP, (hno (by decide) _).trans (by decide),
      (hno (by decide) _).trans (by decide), (hno (by decide) _).trans (by decide),
      (hno (by decide) _).trans (by decide)⟩

/-- C2 is false as stated.  A credential that is not well-formed UTF-8 is not
persisted as it is: after `c1.Save("A", x)` with `x` the byte `0xff` and
`c2.Save("B", "y")`, both successful, the document maps `A` to U+FFFD.  Nor is a
role: after `c1.Save(A, "x")` with `A` the byte `0xff`, and `c2.Save("B", "y")`,
`A` is not a key of the document.  And a key held in memory that is not
well-formed UTF-8 can take the place of a role: with the key `0xff` held by `c1`
and `A` the role U+FFFD, both well-formed credentials saved, the document maps
`A` to the stale value of that key. -/
theorem Save_loses_update :
    (Save (memCollab (granted exampleLock)) exampleStore (utf8 "A") [byte 0xff]
        emptySecrets).outcome = Outcome.returned none ∧
    (Save (memCollab (granted exampleLock)) exampleStore (utf8 "B") (utf8 "y")
      (Save (memCollab (granted exampleLock)) exampleStore (utf8 "A") [byte 0xff]
        emptySecrets).world).outcome = Outcome.returned none ∧
    (((Save (memCollab (granted exampleLock)) exampleStore (utf8 "B") (utf8 "y")
      (Save (memCollab (granted exampleLock)) exampleStore (utf8 "A") [byte 0xff]
        emptySecrets).world).world (utf8 "aws-cli-oidc/p") (utf8 "alice")).bind
          documentRoles).bind (mapGet (utf8 "A")) = some [byte 0xef, byte 0xbf, byte 0xbd] ∧
    utf8 "A" ≠ utf8 "B" ∧
    [byte 0xef, byte 0xbf, byte 0xbd] ≠ [byte 0xff] ∧
    (Save (memCollab (granted exampleLock)) exampleStoreRaw (utf8 "\ufffd") (utf8 "x")
        emptySecrets).outcome = Outcome.returned none ∧
    (Save (memCollab (granted exampleLock)) exampleStore (utf8 "B") (utf8 "y")
      (Save (memCollab (granted exampleLock)) exampleStoreRaw (utf8 "\ufffd") (utf8 "x")
        emptySecrets).world).outcome = Outcome.returned none ∧
    (((Save (memCollab (granted exampleLock)) exampleStore (utf8 "B") (utf8 "y")
      (Save (memCollab (granted exampleLock)) exampleStoreRaw (utf8 "\ufffd") (utf8 "x")
        emptySecrets).world).world (utf8 "aws-cli-oidc/p") (utf8 "alice")).bind
          documentRoles).bind (mapGet (utf8 "\ufffd")) = some (utf8 "stale") ∧
    utf8 "\ufffd" ≠ utf8 "B" ∧
    utf8 "stale" ≠ utf8 "x" ∧
    (Save (memCollab (granted exampleLock)) exampleStore [byte 0xff] (utf8 "x")
        emptySecrets).outcome = Outcome.returned none ∧
    (Save (memCollab (granted exampleLock)) exampleStore (utf8 "B") (utf8 "y")
      (Save (memCollab (granted exampleLock)) exampleStore [byte 0xff] (utf8 "x")
        emptySecrets).world).outcome = Outcome.returned none ∧
    (((Save (memCollab (granted exampleLock)) exampleStore (utf8 "B") (utf8 "y")
      (Save (memCollab (granted exampleLock)) exampleStore [byte 0xff] (utf8 "x")
        emptySecrets).world).world (utf8 "aws-cli-oidc/p") (utf8 "alice")).bind
          documentRoles).bind (mapGet [byte 0xff]) = none ∧
    [byte 0xff] ≠ utf8 "B" := by
  refine ⟨?_, ?_, ?_, ?_, ?_, ?_, ?_, ?_, ?_, ?_, ?_, ?_, ?_, ?_⟩ <;> decide

/-- C2, amended: two cache objects for the same provider and user share one
store; the roles `A ≠ B` and the keys both caches hold in memory are well-formed
UTF-8.  If `c1.Save(A, x)` and then `c2.Save(B, y)` run with the lock granted and
both succeed, the persisted document maps `A` to `x` and `B` to `y`, each coerced
to well-formed UTF-8: to `x` and `y` themselves when they are well-formed. -/
theorem no_lost_update (c1 c2 : KeyringStore) (A B x y : GoString) (lock1 lock2 : LockHandle)
    (w : Secrets)
    (hservice : c1.service = c2.service) (huser : c1.user = c2.user) (hAB : A ≠ B)
    (hA : WellFormed A) (hB : WellFormed B)
    (hk1 : KeysWellFormed c1.AWSCredentials) (hk2 : KeysWellFormed c2.AWSCredentials)
    (h1 : (Save (memCollab (granted lock1)) c1 A x w).outcome = Outcome.returned none)
    (h2 : (Save (memCollab (granted lock2)) c2 B y
      (Save (memCollab (granted lock1)) c1 A x w).world).outcome = Outcome.returned none) :
    ∃ blob P,
      (Save (memCollab (granted lock2)) c2 B y
        (Save (memCollab (granted lock1)) c1 A x w).world).world c2.service c2.user = some blob ∧
      documentRoles blob = some P ∧
      mapGet A P = some (coerceUTF8 x) ∧ mapGet B P = some (coerceUTF8 y) ∧
      (WellFormed x → mapGet A P = some x) ∧ (WellFormed y → mapGet B P = some y) := by
  obtain ⟨s1, m1, hU1, hm1, _, hw1⟩ := Save_mem_success lock1 c1 A x w h1
  obtain ⟨s2, m2, hU2, hm2, _, hw2⟩ := Save_mem_success lock2 c2 B y _ h2
  have hkeys1 : KeysWellFormed (some m1) := by
    rw [← hm1]
    cases hw : w c1.service c1.user with
    | none => rw [hw] at hU1; rw [hU1]; exact hk1
    | some p => rw [hw] at hU1; exact reread_keysWellFormed p c1 s1 hk1 hU1
  have hlook : (Save (memCollab (granted lock1)) c1 A x w).world c2.service c2.user
      = some (marshalled (mapSet A x m1)) := by
    rw [hw1, hservice, huser]
    simp [Secrets.put]
  rw [hlook] at hU2
  simp only at hU2
  have hkeys2 : KeysWellFormed (some m2) := by
    rw [← hm2]
    exact reread_keysWellFormed _ c2 s2 hk2 hU2
  rw [if_pos (marshalled_ne_empty _)] at hU2
  obtain ⟨F, hF, hFget⟩ := Unmarshal_marshalled (mapSet A x m1) c2
    (keysWellFormed_mapSet A x m1 hA hkeys1)
  rw [hF] at hU2
  cases hU2
  simp only at hm2
  cases hm2
  obtain ⟨P, hP, hPget⟩ := documentRoles_marshalled (mapSet B y m2)
    (keysWellFormed_mapSet B y m2 hB hkeys2)
  have hPA : mapGet A P = some (coerceUTF8 x) := by
    rw [hPget, mapGet_mapSet, if_neg hAB, hFget, mapGet_mapSet]
    simp [coerceUTF8_idem]
  have hPB : mapGet B P = some (coerceUTF8 y) := by
    rw [hPget, mapGet_mapSet]
    simp
  refine ⟨marshalled (mapSet B y m2), P, ?_, hP, hPA, hPB, ?_, ?_⟩
  · rw [hw2]
    simp [Secrets.put]
  · intro hx
    rw [hPA, coerceUTF8_of_wellFormed x hx]
  · intro hy
    rw [hPB, coerceUTF8_of_wellFormed y hy]

/-- C2, amended, at a concrete input: two caches holding different stale
entries. -/
theorem no_lost_update_witness :
    ∃ blob P,
      (Save (memCollab (granted exampleLock)) exampleStoreZ (utf8 "B") (utf8 "y")
        (Save (memCollab (granted exampleLock)) exampleStore (utf8 "A") (utf8 "x")
          emptySecrets).world).world (utf8 "aws-cli-oidc/p") (utf8 "alice") = some blob ∧
      documentRoles blob = some P ∧
      mapGet (utf8 "A") P = some (utf8 "x") ∧ mapGet (utf8 "B") P = some (utf8 "y") :=
  match no_lost_update exampleStore exampleStoreZ (utf8 "A") (utf8 "B") (utf8 "x") (utf8 "y")
    exampleLock exampleLock emptySecrets rfl rfl (by decide) (wellFormed_utf8 _)
    (wellFormed_utf8 _) keysWellFormed_exampleStore keysWellFormed_exampleStoreZ (by decide)
    (by decide) with
  | ⟨blob, P, hw, hP, _, _, hx, hy⟩ =>
    ⟨blob, P, hw, hP, hx (wellFormed_utf8 _), hy (wellFormed_utf8 _)⟩

/-- C5 is false as stated in its last part: on an empty store, a cache that holds
`Z ↦ z` in memory persists, on `Save("B", "y")`, a document whose role mapping
holds `Z` besides `B`; a fresh cache saving under `B` a credential that is not
well-formed UTF-8, the byte `0xff`, persists a document that maps `B` to U+FFFD;
a fresh cache saving `y` under the role `0xff` persists a document with the one
key U+FFFD; and a cache that holds the key `0xff` in memory persists, on
`Save` of `y` under the role U+FFFD, a document that maps that role to the value
of the key `0xff`. -/
theorem Save_on_empty_store_keeps_memory :
    emptySecrets (utf8 "aws-cli-oidc/p") (utf8 "alice") = none ∧
    (Save (memCollab (granted exampleLock)) exampleStoreZ (utf8 "B") (utf8 "y")
        emptySecrets).outcome
      = Outcome.returned none ∧
    (Save (memCollab (granted exampleLock)) exampleStoreZ (utf8 "B") (utf8 "y")
        emptySecrets).world (utf8 "aws-cli-oidc/p") (utf8 "alice")
      = some (utf8 "\x7b\"credentials\":\x7b\"B\":\"y\",\"Z\":\"z\"\x7d\x7d") ∧
    documentRoles (utf8 "\x7b\"credentials\":\x7b\"B\":\"y\",\"Z\":\"z\"\x7d\x7d")
      = some [(utf8 "B", utf8 "y"), (utf8 "Z", utf8 "z")] ∧
    (Save (memCollab (granted exampleLock)) exampleStore (utf8 "B") [byte 0xff]
        emptySecrets).outcome
      = Outcome.returned none ∧
    (Save (memCollab (granted exampleLock)) exampleStore (utf8 "B") [byte 0xff]
        emptySecrets).world (utf8 "aws-cli-oidc/p") (utf8 "alice")
      = some (utf8 "\x7b\"credentials\":\x7b\"B\":\"\\ufffd\"\x7d\x7d") ∧
    documentRoles (utf8 "\x7b\"credentials\":\x7b\"B\":\"\\ufffd\"\x7d\x7d")
      = some [(utf8 "B", [byte 0xef, byte 0xbf, byte 0xbd])] ∧
    (Save (memCollab (granted exampleLock)) exampleStore [byte 0xff] (utf8 "y")
        emptySecrets).outcome
      = Outcome.returned none ∧
    ((Save (memCollab (granted exampleLock)) exampleStore [byte 0xff] (utf8 "y")
        emptySecrets).world (utf8 "aws-cli-oidc/p") (utf8 "alice")).bind documentRoles
      = some [([byte 0xef, byte 0xbf, byte 0xbd], utf8 "y")] ∧
    (Save (memCollab (granted exampleLock)) exampleStoreRaw (utf8 "\ufffd") (utf8 "y")
        emptySecrets).outcome
      = Outcome.returned none ∧
    ((Save (memCollab (granted exampleLock)) exampleStoreRaw (utf8 "\ufffd") (utf8 "y")
        emptySecrets).world (utf8 "aws-cli-oidc/p") (utf8 "alice")).bind documentRoles
      = some [(utf8 "\ufffd", utf8 "stale")] := by
  refine ⟨?_, ?_, ?_, ?_, ?_, ?_, ?_, ?_, ?_, ?_, ?_⟩ <;> decide

/-- C5, amended: whenever `Save(R, C)` succeeds, a following `Get(R)` on the same
cache object returns the result of deserializing `C`: the record, or
`CorruptDataError`.  When the store reported no blob, and `R` and the keys held
in memory are well-formed UTF-8, the document `Save` wrote has as its role
mapping the entries the cache held in memory with `R` set to `C`, every value
coerced to well-formed UTF-8; that is exactly `{R: C}` for a cache that held no
entries and a well-formed `C`. -/
theorem Save_then_Get {σ τ Cred : Type} (unmarshalCred : GoString → Except UnmarshalError Cred)
    (c : Collab σ) (s : KeyringStore) (R C : GoString) (w : σ) (w0 : τ)
    (hok : (Save c s R C w).outcome = Outcome.returned none) :
    (Get unmarshalCred (Save c s R C w).store R w0).outcome
      = Outcome.returned (match unmarshalCred C with
          | Except.ok cred => Except.ok cred
          | Except.error e => Except.error (Error.CorruptDataError e)) ∧
    (WellFormed R → KeysWellFormed s.AWSCredentials →
      ∀ acquired lock w1 w2,
      c.Acquire s.lockResource acquireOptions w = ((acquired, lock, none), w1) →
      c.Get s.service s.user w1 = (([], some KeyringError.ErrNotFound), w2) →
      ∃ newBlob P,
        Event.KeyringSet s.service s.user newBlob ∈ (Save c s R C w).events ∧
        documentRoles newBlob = some P ∧
        (∀ k, mapGet k P = if k = R then some (coerceUTF8 C)
          else (mapIndex s.AWSCredentials k).map coerceUTF8) ∧
        (WellFormed C → mapGet R P = some C) ∧
        (WellFormed C → s.AWSCredentials = some [] → ∀ k, mapGet k P = mapGet k [(R, C)])) := by
  obtain ⟨acquired, lock, w1, blob, gerr, w2, s1, m, w3, hA, hG, _, hU, hm, _, _, hst, _, hev⟩ :=
    Save_success c s R C w hok
  constructor
  · have hidx : mapIndex (Save c s R C w).store.AWSCredentials R = some C := by
      rw [hst]
      simp [mapIndex, mapGet_mapSet]
    unfold Get
    rw [hidx]
    cases hu : unmarshalCred C <;> simp only [hu]
  · intro hR hkeys acquired1 lock1 w1a w2a hA1 hG1
    rw [hA] at hA1
    cases hA1
    rw [hG] at hG1
    cases hG1
    simp only [ne_eq, not_true_eq_false, if_false] at hU
    cases hU
    have hkm : KeysWellFormed (some m) := by rw [← hm]; exact hkeys
    obtain ⟨P, hP, hPget⟩ := documentRoles_marshalled (mapSet R C m)
      (keysWellFormed_mapSet R C m hR hkm)
    have hkey : ∀ k, mapGet k P = if k = R then some (coerceUTF8 C)
        else (mapIndex s.AWSCredentials k).map coerceUTF8 := by
      intro k
      rw [hPget, mapGet_mapSet, hm]
      by_cases hk : k = R
      · simp only [hk, if_true, Option.map_some']
      · simp only [hk, if_false]
        rfl
    refine ⟨marshalled (mapSet R C m), P, ?_, hP, hkey, ?_, ?_⟩
    · rw [hev]
      simp
    · intro hC
      rw [hkey R, if_pos rfl, coerceUTF8_of_wellFormed C hC]
    · intro hC hempty k
      rw [hkey, hempty, coerceUTF8_of_wellFormed C hC]
      by_cases hk : k = R <;> simp [hk, mapIndex, mapGet]

/-- C5, amended, at a concrete input: a fresh cache saving to an empty store, with
a record decoder that accepts every string. -/
theorem Save_then_Get_witness :
    (Get (fun str => (Except.ok str : Except UnmarshalError GoString))
        (Save (memCollab (granted exampleLock)) exampleStore (utf8 "B") (utf8 "y")
          emptySecrets).store (utf8 "B") ()).outcome = Outcome.returned (Except.ok (utf8 "y")) ∧
    ∃ newBlob P,
      Event.KeyringSet (utf8 "aws-cli-oidc/p") (utf8 "alice") newBlob
        ∈ (Save (memCollab (granted exampleLock)) exampleStore (utf8 "B") (utf8 "y")
            emptySecrets).events ∧
      documentRoles newBlob = some P ∧
      ∀ k, mapGet k P = mapGet k [(utf8 "B", utf8 "y")] :=
  have h := Save_then_Get (fun str => (Except.ok str : Except UnmarshalError GoString))
    (memCollab (granted exampleLock)) exampleStore (utf8 "B") (utf8 "y") emptySecrets ()
    (by decide)
  ⟨h.1,
    match h.2 (wellFormed_utf8 _) keysWellFormed_exampleStore true exampleLock emptySecrets
      emptySecrets rfl rfl with
    | ⟨newBlob, P, hev, hP, _, _, hexact⟩ =>
      ⟨newBlob, P, hev, hP, hexact (wellFormed_utf8 _) rfl⟩⟩

end Lib
